import Mathlib

/-!
Verification development for the optimizely-cms-typegen repository.

The development shallowly embeds the transformation core of the repository:
the parser module (categorization, dependency extraction, property
normalization, topological ordering) and the generator module (value
serialization, default elision, component-reference resolution, file and
registry emission).  File input and output, directory creation and process
exit signaling are external collaborators and are outside the embedding:
the embedded pipeline consumes the structured input tree and produces
(target path, text) pairs.

Modelling conventions:
- JavaScript objects and Maps are modelled as association lists
  `List (String × α)` in insertion order; assignment to an existing key
  updates the value in place (keeping the original position), assignment
  to a fresh key appends, matching both JavaScript object and Map
  semantics.
- Generic JSON-like runtime values are modelled by the tagged union
  `Value`.  Numeric values are modelled as integers (every number the
  generator handles in the claims is an integer).  Fields declared with
  type string in the TypeScript interfaces (content-type keys, the name
  field of a property record) are modelled as string-valued; the
  truthiness test the code applies to such a string is nonemptiness.
- `localeCompare` is modelled as code-point comparison on strings; the
  comparison is a fixed total order, which is all the ordering claims
  depend on.
-/

/-! ## Generic values and association-list maps -/

/-- Tagged union of the JSON-like runtime values the generator manipulates:
null or undefined, booleans, numbers, strings, arrays and plain objects. -/
inductive Value where
  | vnull
  | vbool (b : Bool)
  | vnum (n : Int)
  | vstr (s : String)
  | varr (elems : List Value)
  | vobj (fields : List (String × Value))
deriving Repr

/-- Lookup of a key in an association list, returning the first binding;
models property access on a JavaScript object and `Map.get`. -/
def mapGet {α : Type} (m : List (String × α)) (k : String) : Option α :=
  match m with
  | [] => none
  | (k2, v) :: rest => if k2 = k then some v else mapGet rest k

/-- Key membership test; models the `in` operator and `Map.has`. -/
def mapHas {α : Type} (m : List (String × α)) (k : String) : Bool :=
  (mapGet m k).isSome

/-- Assignment `m[k] = v`: an existing key keeps its position and gets the
new value, a fresh key is appended, matching JavaScript object and Map
insertion-order semantics. -/
def mapSet {α : Type} (m : List (String × α)) (k : String) (v : α) : List (String × α) :=
  match m with
  | [] => [(k, v)]
  | (k2, w) :: rest => if k2 = k then (k2, v) :: rest else (k2, w) :: mapSet rest k v

/-- Removal of a key from an object, as performed by rest destructuring. -/
def removeField {α : Type} (m : List (String × α)) (k : String) : List (String × α) :=
  m.filter (fun kv => decide (kv.1 ≠ k))

/-- List of keys of an association list in order. -/
def keysOf {α : Type} (m : List (String × α)) : List String := m.map Prod.fst

/-- A property definition as a generic object: the TypeScript interface
`PropertyDefinition` carries arbitrary extra fields through an index
signature, and the generator iterates over all entries of the object. -/
def PropObj : Type := List (String × Value)

/-! ## Data model of the parser module -/

/-- The four structural categories of generated artifacts. -/
inductive Category where
  | blocks
  | elements
  | pages
  | settings
deriving Repr, DecidableEq

/-- Folder name of a category; in the source the categories are the
strings themselves. -/
def categoryName : Category → String
  | .blocks => "blocks"
  | .elements => "elements"
  | .pages => "pages"
  | .settings => "settings"

/-- A property collection of a content type as it arrives in the input:
either already a keyed mapping, or a sequence of records each carrying its
own name field. -/
inductive RawProperties where
  | asObject (fields : List (String × PropObj))
  | asArray (records : List PropObj)

/-- A content-type definition as read from the input document.  The
generator reads exactly the declared fields; `properties` may arrive in
either collection form. -/
structure ContentTypeDefinition where
  key : String
  displayName : Option String := none
  description : Option String := none
  baseType : String
  compositionBehaviors : Option (List String) := none
  properties : Option RawProperties := none

/-- A content-type definition after property normalization: the property
collection, when present, is a keyed mapping. -/
structure NormContentType where
  key : String
  displayName : Option String := none
  description : Option String := none
  baseType : String
  compositionBehaviors : Option (List String) := none
  properties : Option (List (String × PropObj)) := none

/-- A display-template definition from the input document. -/
structure DisplayTemplateDefinition where
  key : String
  displayName : Option String := none
  contentType : String
  isDefault : Option Bool := none
  settings : Option (List (String × Value)) := none

/-- The top-level input document: both fields default to the empty
sequence when absent. -/
structure TypesJson where
  contentTypes : Option (List ContentTypeDefinition) := none
  displayTemplates : Option (List DisplayTemplateDefinition) := none

/-- A content type together with its derived category and dependency
list. -/
structure CategorizedContentType where
  definition : NormContentType
  category : Category
  dependencies : List String

/-- The parsed model: key-to-content-type mapping in insertion order,
the template list, and the per-category grouping. -/
structure ParsedTypes where
  contentTypes : List (String × CategorizedContentType)
  displayTemplates : List DisplayTemplateDefinition
  byCategory : Category → List CategorizedContentType

/-! ## Categorization -/

/-- The fixed set of built-in media base types that are skipped. -/
def SKIP_BASE_TYPES : List String := ["_media", "_image", "_video"]

/-- Suffix test on strings, modelling `String.prototype.endsWith` as a
character-suffix check. -/
def strEndsWith (s p : String) : Bool := p.data.isSuffixOf s.data

/-- Determine the category for a content type from its baseType and key;
`none` is the skip signal. -/
def categorizeContentType (ct : NormContentType) : Option Category :=
  if SKIP_BASE_TYPES.contains ct.baseType then
    none
  else if ct.baseType = "_page" then
    some .pages
  else if ct.baseType = "_component" then
    if strEndsWith ct.key "Settings" then
      some .settings
    else if strEndsWith ct.key "Element" then
      some .elements
    else
      some .blocks
  else
    some .blocks

/-- Categorization rules restated from the specification text, in the
stated order of specificity, for comparison with the function embedded
from the source. -/
def categorySpec (baseType key : String) : Option Category :=
  if baseType = "_media" ∨ baseType = "_image" ∨ baseType = "_video" then
    none
  else if baseType = "_page" then
    some .pages
  else if baseType = "_component" then
    if strEndsWith key "Settings" then some .settings
    else if strEndsWith key "Element" then some .elements
    else some .blocks
  else
    some .blocks

/-! ## Dependency extraction -/

/-- Condition of the source on an array property whose item descriptor is
a component reference: the type tag equals "array", the item descriptor
object has type tag "component" and a truthy contentType; the referenced
key is returned.  Per the declared TypeScript interface the contentType is
a string, and a string is truthy exactly when nonempty. -/
def arrayComponentRef (prop : PropObj) : Option String :=
  match mapGet prop "type", mapGet prop "items" with
  | some (.vstr t), some (.vobj it) =>
    if t = "array" then
      match mapGet it "type", mapGet it "contentType" with
      | some (.vstr u), some (.vstr ck) =>
        if u = "component" ∧ ck ≠ "" then some ck else none
      | _, _ => none
    else none
  | _, _ => none

/-- Condition of the source on a direct component-typed property carrying
a truthy contentType; the referenced key is returned. -/
def directComponentRef (prop : PropObj) : Option String :=
  match mapGet prop "type", mapGet prop "contentType" with
  | some (.vstr t), some (.vstr ck) =>
    if t = "component" ∧ ck ≠ "" then some ck else none
  | _, _ => none

/-- First-occurrence deduplication, as performed by spreading a Set built
from a list: iteration order of a Set is insertion order, so the first
occurrence of each element is kept. -/
def dedupFirst : List String → List String
  | [] => []
  | x :: xs => x :: dedupFirst (xs.filter (fun y => decide (y ≠ x)))
termination_by l => l.length
decreasing_by
  have h := List.length_filter_le (fun y => decide (y ≠ x)) xs
  simp only [List.length_cons]
  omega

/-- Extract content-type dependencies from a property mapping: component
references in array items and direct component references, deduplicated. -/
def extractDependencies (properties : Option (List (String × PropObj))) : List String :=
  match properties with
  | none => []
  | some props =>
    let deps := props.flatMap (fun kv =>
      (arrayComponentRef kv.2).toList ++ (directComponentRef kv.2).toList)
    dedupFirst deps

/-! ## Property normalization -/

/-- Normalize a property collection from sequence form to keyed-mapping
form: the name field of each record is promoted to the key and removed
from the record; records whose name is absent or falsy are dropped; a
result with no entries normalizes to an absent collection. -/
def normalizeProperties : Option RawProperties → Option (List (String × PropObj))
  | none => none
  | some (.asObject fields) => some fields
  | some (.asArray records) =>
    let result := records.foldl (fun acc r =>
      match mapGet r "name" with
      | some (.vstr s) => if s ≠ "" then mapSet acc s (removeField r "name") else acc
      | _ => acc) []
    if result.length > 0 then some result else none

/-- Apply property normalization to a content-type definition, as the
parser does in place before categorizing. -/
def normalizeContentType (ct : ContentTypeDefinition) : NormContentType :=
  { key := ct.key
    displayName := ct.displayName
    description := ct.description
    baseType := ct.baseType
    compositionBehaviors := ct.compositionBehaviors
    properties := normalizeProperties ct.properties }

/-! ## Main parser -/

/-- Comparison used to sort a category by key; `localeCompare` is modelled
as code-point comparison. -/
def keyLe (a b : CategorizedContentType) : Bool :=
  decide (a.definition.key ≤ b.definition.key)

/-- Parse the structured input document into the categorized model.  Each
content type is normalized, categorized (skipped when the categorizer
signals skip), analyzed for dependencies, inserted into the key map and
pushed onto its category group; each category group is finally sorted by
key.  Reading the file and decoding JSON happen in an external collaborator
before this function. -/
def parseTypesJson (data : TypesJson) : ParsedTypes :=
  let processed := (data.contentTypes.getD []).foldl
    (fun (acc : List (String × CategorizedContentType) × (Category → List CategorizedContentType)) ct0 =>
      let ct := normalizeContentType ct0
      match categorizeContentType ct with
      | none => acc
      | some category =>
        let dependencies := extractDependencies ct.properties
        let categorized : CategorizedContentType :=
          { definition := ct, category := category, dependencies := dependencies }
        (mapSet acc.1 ct.key categorized,
         fun c => if c = category then acc.2 c ++ [categorized] else acc.2 c))
    ([], fun _ => [])
  { contentTypes := processed.1
    displayTemplates := data.displayTemplates.getD []
    byCategory := fun c => (processed.2 c).mergeSort keyLe }

/-- Category folder of a key in the parsed model. -/
def getCategoryForKey (parsed : ParsedTypes) (key : String) : Option Category :=
  (mapGet parsed.contentTypes key).map (fun ct => ct.category)

/-- Relative import path between two categories. -/
def getRelativeImportPath (fromCategory toCategory : Category) (toFileName : String) : String :=
  if fromCategory = toCategory then
    "./" ++ toFileName
  else
    "../" ++ categoryName toCategory ++ "/" ++ toFileName

/-! ## Dependency orderer

The source performs a depth-first post-order traversal with a binary
"ever visited" set threaded through recursion.  The embedding carries, in
the result type, the fact that the visited set only grows, which the
termination measure needs. -/

/-- State of the traversal: the visited set and the output list, both in
the order they were extended. -/
structure VisitState where
  visited : List String
  result : List String

/-- Number of model keys not yet visited; the primary termination
measure of the traversal. -/
def unvisitedCount (m : List (String × CategorizedContentType)) (vis : List String) : Nat :=
  ((keysOf m).filter (fun k => decide (k ∉ vis))).length

theorem length_filter_le_of_imp {α : Type} (l : List α) (p q : α → Bool)
    (h : ∀ a, p a = true → q a = true) : (l.filter p).length ≤ (l.filter q).length := by
  induction l with
  | nil => simp
  | cons a l ih =>
    by_cases hp : p a = true
    · have hq := h a hp
      simp only [List.filter_cons, hp, hq, if_true, List.length_cons]
      omega
    · rw [Bool.not_eq_true] at hp
      simp only [List.filter_cons, hp, Bool.false_eq_true, if_false]
      by_cases hq : q a = true
      · simp only [hq, if_true, List.length_cons]
        omega
      · rw [Bool.not_eq_true] at hq
        simp only [hq, Bool.false_eq_true, if_false]
        exact ih

theorem unvisited_mono (m : List (String × CategorizedContentType)) (v1 v2 : List String)
    (h : ∀ x, x ∈ v1 → x ∈ v2) :
    unvisitedCount m v2 ≤ unvisitedCount m v1 := by
  apply length_filter_le_of_imp
  intro a ha
  simp only [decide_eq_true_eq] at ha ⊢
  intro hmem
  exact ha (h a hmem)

theorem filter_notin_cons_lt (l : List String) (k : String) (vis : List String)
    (hk : k ∈ l) (hnv : ¬ k ∈ vis) :
    (l.filter (fun x => decide (x ∉ k :: vis))).length <
      (l.filter (fun x => decide (x ∉ vis))).length := by
  have himp : ∀ a : String, (fun x => decide (x ∉ k :: vis)) a = true →
      (fun x => decide (x ∉ vis)) a = true := by
    intro a ha
    simp only [decide_eq_true_eq, List.mem_cons] at ha ⊢
    intro hmem
    exact ha (Or.inr hmem)
  induction l with
  | nil => simp at hk
  | cons a l ih =>
    by_cases hak : a = k
    · subst hak
      have h1 : decide (a ∉ a :: vis) = false := by simp
      have h2 : decide (a ∉ vis) = true := by simpa using hnv
      simp only [List.filter_cons, h1, h2, Bool.false_eq_true, if_false, if_true,
        List.length_cons]
      have := length_filter_le_of_imp l _ _ himp
      omega
    · have hkl : k ∈ l := by
        rcases List.mem_cons.mp hk with h | h
        · exact absurd h.symm hak
        · exact h
      have hmain := ih hkl
      have heq : decide (a ∉ k :: vis) = decide (a ∉ vis) := by
        simp only [List.mem_cons, decide_eq_decide]
        constructor
        · intro hx hmem
          exact hx (Or.inr hmem)
        · intro hx hmem
          rcases hmem with h | h
          · exact hak h
          · exact hx h
      simp only [List.filter_cons, heq]
      by_cases hb : decide (a ∉ vis) = true
      · simp only [hb, if_true, List.length_cons]
        omega
      · rw [Bool.not_eq_true] at hb
        simp only [hb, Bool.false_eq_true, if_false]
        exact hmain

theorem mapGet_some_mem_keys {α : Type} {m : List (String × α)} {k : String} {v : α}
    (h : mapGet m k = some v) : k ∈ keysOf m := by
  induction m with
  | nil => simp [mapGet] at h
  | cons p rest ih =>
    rw [mapGet] at h
    by_cases hk : p.1 = k
    · simp [keysOf, hk]
    · rw [if_neg hk] at h
      have := ih h
      simp only [keysOf, List.map_cons, List.mem_cons]
      right
      exact this

theorem unvisited_strict (m : List (String × CategorizedContentType)) (vis : List String)
    (k : String) (hk : k ∈ keysOf m) (hnv : ¬ k ∈ vis) :
    unvisitedCount m (k :: vis) < unvisitedCount m vis :=
  filter_notin_cons_lt (keysOf m) k vis hk hnv

mutual

/-- The recursive `visit` of the source on a single key: an
already-visited key returns immediately; otherwise the key is marked
visited, and when it is present in the model its dependencies are visited
first and the key is then pushed onto the result (post-order).  A key
absent from the model is only marked visited. -/
def visitK (m : List (String × CategorizedContentType)) (k : String) (st : VisitState) :
    {r : VisitState // ∀ x, x ∈ st.visited → x ∈ r.visited} :=
  if hv : k ∈ st.visited then ⟨st, fun _ hx => hx⟩
  else
    match hm : mapGet m k with
    | none => ⟨⟨k :: st.visited, st.result⟩, fun x hx => List.mem_cons_of_mem _ hx⟩
    | some ct =>
      match visitDeps m ct.dependencies ⟨k :: st.visited, st.result⟩ with
      | ⟨st2, h2⟩ =>
        ⟨⟨st2.visited, st2.result ++ [k]⟩, fun x hx => h2 x (List.mem_cons_of_mem _ hx)⟩
termination_by (unvisitedCount m st.visited, 0)
decreasing_by
  apply Prod.Lex.left
  exact unvisited_strict m st.visited k (mapGet_some_mem_keys hm) hv

/-- The dependency loop of `visit`: visit each dependency in order,
threading the state. -/
def visitDeps (m : List (String × CategorizedContentType)) (ds : List String)
    (st : VisitState) :
    {r : VisitState // ∀ x, x ∈ st.visited → x ∈ r.visited} :=
  match ds with
  | [] => ⟨st, fun _ hx => hx⟩
  | d :: rest =>
    match visitK m d st with
    | ⟨st1, h1⟩ =>
      match visitDeps m rest st1 with
      | ⟨st2, h2⟩ => ⟨st2, fun x hx => h2 x (h1 x hx)⟩
termination_by (unvisitedCount m st.visited, ds.length + 1)
decreasing_by
  · apply Prod.Lex.right
    simp only [List.length_cons]
    omega
  · have hle := unvisited_mono m st.visited st1.visited h1
    rcases Nat.lt_or_ge (unvisitedCount m st1.visited) (unvisitedCount m st.visited) with h | h
    · exact Prod.Lex.left _ _ h
    · have heq : unvisitedCount m st1.visited = unvisitedCount m st.visited :=
        Nat.le_antisymm hle h
      rw [heq]
      apply Prod.Lex.right
      simp only [List.length_cons]
      omega

end

/-- Topological ordering used in single-file mode: visit every content
type of the model in map iteration order and collect the post-order
results. -/
def buildDependencyOrder (parsed : ParsedTypes) : List String :=
  ((keysOf parsed.contentTypes).foldl
    (fun st k => (visitK parsed.contentTypes k st).1) ⟨[], []⟩).result

/-! ## Code generation utilities -/

/-- Options of the generator.  The optional TypeScript booleans default to
false (absent options are falsy). -/
structure GeneratorOptions where
  outdir : String
  singleFile : Bool := false
  withRegistry : Bool := false
  verboseGeneration : Bool := false

/-- Cross-entity import requirement recorded while resolving a component
reference. -/
structure ImportInfo where
  constantName : String
  category : Category
  fileName : String

/-- Map from referenced key to its import requirement, threaded through
generation in place of the mutated JavaScript Map. -/
def RefMap : Type := List (String × ImportInfo)

/-- Suffix selector of `toConstantName`. -/
inductive NameSuffix where
  | CT
  | DisplayTemplate

/-- Convert a content-type key to the exported constant name: the CT
suffix is appended for content types, a display-template key is used
unchanged. -/
def toConstantName (key : String) (suffix : NameSuffix := .CT) : String :=
  match suffix with
  | .CT => key ++ "CT"
  | .DisplayTemplate => key

/-- Single-quote character, written by code point to keep the development
free of quote literals. -/
def squote : Char := Char.ofNat 39

/-- Backslash character. -/
def bslash : Char := Char.ofNat 92

/-- Newline character. -/
def nlc : Char := Char.ofNat 10

/-- Newline as a one-character string. -/
def nls : String := String.mk [nlc]

/-- Single quote as a one-character string. -/
def squoteS : String := String.mk [squote]

/-- Character membership in a string; models `String.prototype.includes`
with a one-character needle. -/
def strContains (s : String) (c : Char) : Bool := s.data.contains c

/-- Length of a string in characters; agrees with the JavaScript length
on the one-byte characters the serializer measures. -/
def strLen (s : String) : Nat := s.data.length

/-- Replace every single quote by a backslash-quote pair, as the regex
replacement applied to serialized strings does. -/
def escapeSQuotes (s : String) : String :=
  String.mk (s.data.flatMap (fun c => if c = squote then [bslash, squote] else [c]))

/-- Indentation: two spaces per nesting level. -/
def spacesFor (level : Nat) : String := String.mk (List.replicate (2 * level) ' ')

/-- First character class of the identifier pattern used for object keys:
an ASCII letter, underscore or dollar sign. -/
def isIdentStart (c : Char) : Bool := c.isAlpha || c = Char.ofNat 95 || c = Char.ofNat 36

/-- Remaining character class of the identifier pattern: an ASCII letter
or digit, underscore or dollar sign. -/
def isIdentChar (c : Char) : Bool := c.isAlphanum || c = Char.ofNat 95 || c = Char.ofNat 36

/-- Test of the simple identifier pattern applied to object keys. -/
def matchesIdentPattern (k : String) : Bool :=
  match k.data with
  | [] => false
  | c :: rest => isIdentStart c && rest.all isIdentChar

/-- Serialize a value to TypeScript literal text with proper indentation.
Null and undefined print as the absence literal; strings are quoted with
internal quotes escaped; numbers and booleans print unformatted; an empty
sequence or mapping prints in compact bracket form; a non-empty sequence
prints inline when no element contains a line break and the joined width
is under 60, and otherwise one element per line one level deeper with
trailing commas; a non-empty mapping always prints one key-value pair per
line, quoting keys that do not match the identifier pattern. -/
def serializeValue : Value → Nat → String
  | .vnull, _ => "undefined"
  | .vstr s, _ => squoteS ++ escapeSQuotes s ++ squoteS
  | .vnum n, _ => toString n
  | .vbool b, _ => toString b
  | .varr [], _ => "[]"
  | .varr (x0 :: rest), currentIndent =>
    let items := (x0 :: rest).attach.map (fun x => serializeValue x.1 (currentIndent + 1))
    if (items.all fun i => !(strContains i nlc)) &&
        decide (strLen (String.intercalate ", " items) < 60) then
      "[" ++ String.intercalate ", " items ++ "]"
    else
      "[" ++ nls ++
        String.intercalate nls (items.map (fun item => spacesFor (currentIndent + 1) ++ item ++ ",")) ++
        nls ++ spacesFor currentIndent ++ "]"
  | .vobj [], _ => "\x7b\x7d"
  | .vobj (f0 :: rest), currentIndent =>
    let propLines := (f0 :: rest).attach.map (fun kv =>
      let key := if matchesIdentPattern kv.1.1 then kv.1.1 else squoteS ++ kv.1.1 ++ squoteS
      spacesFor (currentIndent + 1) ++ key ++ ": " ++ serializeValue kv.1.2 (currentIndent + 1) ++ ",")
    "\x7b" ++ nls ++ String.intercalate nls propLines ++ nls ++ spacesFor currentIndent ++ "\x7d"
termination_by v _ => sizeOf v
decreasing_by
  · have h1 := List.sizeOf_lt_of_mem x.2
    simp only [Value.varr.sizeOf_spec]
    omega
  · have h1 := List.sizeOf_lt_of_mem kv.2
    have h2 : sizeOf kv.1.2 < sizeOf kv.1 := by
      rcases kv with ⟨⟨a, b⟩, hm⟩
      simp only [Prod.mk.sizeOf_spec]
      omega
    simp only [Value.vobj.sizeOf_spec]
    omega

/-! ## Property generation -/

/-- Strict equality of a value against a number literal. -/
def isNum (v : Value) (n : Int) : Bool :=
  match v with
  | .vnum m => m = n
  | _ => false

/-- Test for an array value with no elements. -/
def isEmptyArr (v : Value) : Bool :=
  match v with
  | .varr [] => true
  | _ => false

/-- Strict equality of a value against the boolean false. -/
def isFalseV (v : Value) : Bool :=
  match v with
  | .vbool false => true
  | _ => false

/-- Strict equality of a value against a string literal. -/
def isStrEq (v : Value) (s : String) : Bool :=
  match v with
  | .vstr t => t = s
  | _ => false

/-- Fixed table deciding whether a property value is a default to omit in
non-verbose mode: sort order zero, max length 255, empty allow and deny
type lists, localized false, required false, group "content". -/
def isDefaultPropertyValue (key : String) (value : Value) : Bool :=
  if key = "sortOrder" && isNum value 0 then true
  else if key = "maxLength" && isNum value 255 then true
  else if key = "allowedTypes" && isEmptyArr value then true
  else if key = "restrictedTypes" && isEmptyArr value then true
  else if key = "localized" && isFalseV value then true
  else if key = "required" && isFalseV value then true
  else if key = "group" && isStrEq value "content" then true
  else false

/-- Build a property object: all entries are copied in order except that,
in non-verbose mode, entries equal to their table default are omitted, and
an items entry forming a component reference is handled separately: when
the referenced key exists in the model the items entry is replaced by a
placeholder carrying the referenced constant name and the import
requirement is recorded; when it is absent the items entry is preserved
unchanged. -/
def buildPropertyObject (prop : PropObj) (parsed : ParsedTypes)
    (componentRefs : RefMap) (verboseGeneration : Bool) :
    (List (String × Value)) × RefMap :=
  let result := prop.foldl (fun acc kv =>
    if kv.1 = "items" ∧ (arrayComponentRef prop).isSome then acc
    else if ¬ verboseGeneration ∧ isDefaultPropertyValue kv.1 kv.2 = true then acc
    else mapSet acc kv.1 kv.2) []
  match arrayComponentRef prop, mapGet prop "items" with
  | some refKey, some itemsVal =>
    match mapGet parsed.contentTypes refKey with
    | some refCt =>
      let constantName := toConstantName refKey
      (mapSet result "items"
        (.vobj [("type", .vstr "component"), ("__contentTypeRef", .vstr constantName)]),
       mapSet componentRefs refKey
        { constantName := constantName, category := refCt.category, fileName := refKey })
    | none => (mapSet result "items" itemsVal, componentRefs)
  | _, _ => (result, componentRefs)

/-- Literal text of the reference-placeholder pattern up to the opening
quote of the captured name. -/
def refPat : List Char := ("__contentTypeRef: ").data ++ [squote]

/-- Attempt to match the reference-placeholder pattern at the head of the
character list, returning the captured name (the maximal nonempty quote-free
run, as matched by the regex) and the remainder after the closing quote. -/
def splitRefMatch (l : List Char) : Option (List Char × List Char) :=
  if refPat.isPrefixOf l then
    match (l.drop refPat.length).takeWhile (fun c => decide (c ≠ squote)),
        (l.drop refPat.length).dropWhile (fun c => decide (c ≠ squote)) with
    | c1 :: cs1, _ :: r => some (c1 :: cs1, r)
    | _, _ => none
  else none

theorem splitRefMatch_length {l : List Char} {n r : List Char}
    (h : splitRefMatch l = some (n, r)) : r.length < l.length := by
  unfold splitRefMatch at h
  split at h
  · rename_i hp
    have hlen : refPat.length ≤ l.length := by
      have := List.isPrefixOf_iff_prefix.mp hp
      exact this.length_le
    have hdroplen : (l.drop refPat.length).length = l.length - refPat.length :=
      List.length_drop _ _
    have hdw : List.Sublist
        ((l.drop refPat.length).dropWhile (fun c => decide (c ≠ squote)))
        (l.drop refPat.length) :=
      List.dropWhile_sublist _
    have hdwlen := hdw.length_le
    split at h
    · rename_i a as b bs hname hrest
      injection h with h1
      injection h1 with h2 h3
      subst h3
      rw [hrest] at hdwlen
      simp only [List.length_cons] at hdwlen
      have hpt : 0 < refPat.length := by
        unfold refPat
        simp
      omega
    · cases h
  · cases h

/-- Scanner of the global regex replacement: at each position either the
pattern matches (leftmost, non-overlapping) and is rewritten, or one
character is emitted unchanged. -/
def replaceRefsAux : List Char → List Char
  | [] => []
  | c :: cs =>
    match h : splitRefMatch (c :: cs) with
    | some (name, r) => ("contentType: ").data ++ name ++ replaceRefsAux r
    | none => c :: replaceRefsAux cs
termination_by l => l.length
decreasing_by
  · exact splitRefMatch_length h
  · simp

/-- Post-process serialized code, replacing every reference placeholder
entry by a symbolic constant reference. -/
def replaceReferencePlaceholders (code : String) : String :=
  String.mk (replaceRefsAux code.data)

/-! ## Content type generation -/

/-- Build the object literal passed to the contentType() call, in the
fixed field order of the source: key, truthy displayName, truthy
description, baseType, non-empty composition behaviors, non-empty
properties (each property built by `buildPropertyObject`, threading the
recorded imports). -/
def buildContentTypeObject (defn : NormContentType) (parsed : ParsedTypes)
    (componentRefs : RefMap) (verboseGeneration : Bool) :
    (List (String × Value)) × RefMap :=
  let obj : List (String × Value) := [("key", .vstr defn.key)]
  let obj := match defn.displayName with
    | some s => if s ≠ "" then mapSet obj "displayName" (.vstr s) else obj
    | none => obj
  let obj := match defn.description with
    | some s => if s ≠ "" then mapSet obj "description" (.vstr s) else obj
    | none => obj
  let obj := mapSet obj "baseType" (.vstr defn.baseType)
  let obj := match defn.compositionBehaviors with
    | some bs => if bs.length > 0 then mapSet obj "compositionBehaviors" (.varr (bs.map .vstr)) else obj
    | none => obj
  match defn.properties with
  | some props =>
    if props.length > 0 then
      let built := props.foldl (fun (acc : (List (String × Value)) × RefMap) kv =>
        let pair := buildPropertyObject kv.2 parsed acc.2 verboseGeneration
        (mapSet acc.1 kv.1 (.vobj pair.1), pair.2)) ([], componentRefs)
      (mapSet obj "properties" (.vobj built.1), built.2)
    else (obj, componentRefs)
  | none => (obj, componentRefs)

/-- Generate the contentType() call for a content type, returning the
code together with the recorded import requirements. -/
def generateContentType (ct : CategorizedContentType) (parsed : ParsedTypes)
    (componentRefs : RefMap) (verboseGeneration : Bool) : String × RefMap :=
  let built := buildContentTypeObject ct.definition parsed componentRefs verboseGeneration
  let constantName := toConstantName ct.definition.key
  let serialized := serializeValue (.vobj built.1) 0
  let code := "export const " ++ constantName ++ " = contentType(" ++ serialized ++ ");"
  (replaceReferencePlaceholders code, built.2)

/-! ## Display template generation -/

/-- Build the object literal passed to the displayTemplate() call: key,
truthy displayName, the content type key, isDefault whenever it is not
undefined, non-empty settings. -/
def buildDisplayTemplateObject (template : DisplayTemplateDefinition) : List (String × Value) :=
  let obj : List (String × Value) := [("key", .vstr template.key)]
  let obj := match template.displayName with
    | some s => if s ≠ "" then mapSet obj "displayName" (.vstr s) else obj
    | none => obj
  let obj := mapSet obj "contentType" (.vstr template.contentType)
  let obj := match template.isDefault with
    | some b => mapSet obj "isDefault" (.vbool b)
    | none => obj
  match template.settings with
  | some st => if st.length > 0 then mapSet obj "settings" (.vobj (st.map (fun kv => kv))) else obj
  | none => obj

/-- Generate the displayTemplate() call for a display template. -/
def generateDisplayTemplate (template : DisplayTemplateDefinition) : String :=
  let obj := buildDisplayTemplateObject template
  let constantName := toConstantName template.key .DisplayTemplate
  let serialized := serializeValue (.vobj obj) 0
  "export const " ++ constantName ++ " = displayTemplate(" ++ serialized ++ ");"

/-! ## File generation -/

/-- Fixed category order used for aggregate artifacts. -/
def CATEGORY_ORDER : List Category := [.elements, .blocks, .pages, .settings]

/-- Capitalize the first character, as done for section-comment titles. -/
def capitalizeFirst (s : String) : String :=
  match s.data with
  | [] => ""
  | c :: rest => String.mk (c.toUpper :: rest)

/-- Row of equals signs used in section-header comments. -/
def eqRow : String := "// " ++ String.mk (List.replicate 76 '=')

/-- The single-line SDK import emitted at the top of generated files. -/
def sdkImportLine : String :=
  "import \x7b contentType, displayTemplate \x7d from " ++ squoteS ++ "@optimizely/cms-sdk" ++ squoteS ++ ";"

/-- Generate a JSDoc comment for a content type: the display name line,
a separator and the description line, each only when truthy; the result is
empty when neither is present. -/
def generateJsDoc (ct : NormContentType) : String :=
  let lines := ["/**"]
  let lines := match ct.displayName with
    | some s => if s ≠ "" then lines ++ [" * " ++ s] else lines
    | none => lines
  let lines := match ct.description with
    | some d =>
      if d ≠ "" then
        (match ct.displayName with
         | some s => if s ≠ "" then lines ++ [" *"] else lines
         | none => lines) ++ [" * " ++ d]
      else lines
    | none => lines
  let lines := lines ++ [" */"]
  if lines.length > 2 then String.intercalate nls lines else ""

/-- Generate a complete TypeScript file for a content type: the SDK
import, one import per recorded component reference, the optional JSDoc,
the contentType() code, and the displayTemplate() code of every template
bound to this content type. -/
def generateFile (ct : CategorizedContentType) (parsed : ParsedTypes)
    (templates : List DisplayTemplateDefinition) (verboseGeneration : Bool) : String :=
  let gen := generateContentType ct parsed [] verboseGeneration
  let importLines := gen.2.map (fun kv =>
    "import \x7b " ++ kv.2.constantName ++ " \x7d from " ++ squoteS ++
      getRelativeImportPath ct.category kv.2.category kv.2.fileName ++ squoteS ++ ";")
  let jsDoc := generateJsDoc ct.definition
  let lines := [sdkImportLine] ++ importLines ++ [""] ++
    (if jsDoc ≠ "" then [jsDoc] else []) ++ [gen.1] ++
    (templates.filter (fun t => t.contentType = ct.definition.key)).flatMap
      (fun t => ["", generateDisplayTemplate t])
  String.intercalate nls lines ++ nls

/-- Generate the index file of a category: one re-export line per content
type, covering its constant and the constants of its display templates. -/
def generateIndexFile (types : List CategorizedContentType)
    (templates : List DisplayTemplateDefinition) : String :=
  let exports := types.map (fun ct =>
    let constantName := toConstantName ct.definition.key
    let ctTemplates := templates.filter (fun t => t.contentType = ct.definition.key)
    let templateExports := ctTemplates.map (fun t => toConstantName t.key .DisplayTemplate)
    "export \x7b " ++ String.intercalate ", " (constantName :: templateExports) ++
      " \x7d from " ++ squoteS ++ "./" ++ ct.definition.key ++ squoteS ++ ";")
  String.intercalate nls exports ++ nls

/-- Generate the root index file re-exporting every non-empty category in
fixed order. -/
def generateRootIndexFile (parsed : ParsedTypes) : String :=
  let lines := CATEGORY_ORDER.foldl (fun acc category =>
    if (parsed.byCategory category).length > 0 then
      acc ++ ["export * from " ++ squoteS ++ "./" ++ categoryName category ++ squoteS ++ ";"]
    else acc) []
  String.intercalate nls lines ++ nls

/-- Display-template constants admitted to the registry lists: templates
are kept exactly when their referenced content type is present in the
model.  The source repeats this collection loop in the registry file and
in single-file mode. -/
def registryTemplateExports (parsed : ParsedTypes) : List String :=
  parsed.displayTemplates.foldl (fun acc t =>
    if mapHas parsed.contentTypes t.contentType then
      acc ++ [toConstantName t.key .DisplayTemplate]
    else acc) []

/-- Lines of the allContentTypes registry array: the two built-in types
followed by, for each non-empty category in fixed order, a section comment
and one line per constant name. -/
def allContentTypesLines (names : Category → List String) : List String :=
  ["/**",
   " * Array of all content types for registry initialization",
   " */",
   "export const allContentTypes = [",
   "  // Built-in experience types",
   "  BlankExperienceContentType,",
   "  BlankSectionContentType,"] ++
  CATEGORY_ORDER.flatMap (fun category =>
    if (names category).length > 0 then
      ("  // " ++ capitalizeFirst (categoryName category)) ::
        (names category).map (fun n => "  " ++ n ++ ",")
    else []) ++
  ["];", ""]

/-- Lines of the allDisplayTemplates registry array. -/
def allDisplayTemplatesLines (templateNames : List String) : List String :=
  ["/**",
   " * Array of all display templates for registry initialization",
   " */",
   "export const allDisplayTemplates = ["] ++
  templateNames.map (fun n => "  " ++ n ++ ",") ++
  ["];", ""]

/-- Lines of the registry initialization routine. -/
def initRoutineLines : List String :=
  ["/**",
   " * Initialize all registries",
   " * Call this in your root layout before rendering CMS content",
   " */",
   "export function initAllRegistries() \x7b",
   "  initContentTypeRegistry(allContentTypes);",
   "  initDisplayTemplateRegistry(allDisplayTemplates);",
   "\x7d",
   ""]

/-- Generate all content types and templates in a single file: the import
block, each non-empty category in fixed order with a section header, each
content type in dependency order preceded by its JSDoc and followed by its
display templates, and optionally the registry section.  The source also
accumulates a list of content-type constant names it never reads; that
dead accumulation is not modelled. -/
def generateSingleFile (parsed : ParsedTypes) (withRegistry : Bool)
    (verboseGeneration : Bool) : String :=
  let importBlock :=
    if withRegistry then
      ["import \x7b",
       "  contentType,",
       "  displayTemplate,",
       "  initContentTypeRegistry,",
       "  initDisplayTemplateRegistry,",
       "  BlankExperienceContentType,",
       "  BlankSectionContentType,",
       "\x7d from " ++ squoteS ++ "@optimizely/cms-sdk" ++ squoteS ++ ";"]
    else [sdkImportLine]
  let orderedKeys := buildDependencyOrder parsed
  let byCat : Category → List String := orderedKeys.foldl (fun acc key =>
    match mapGet parsed.contentTypes key with
    | some ct => fun c => if c = ct.category then acc c ++ [key] else acc c
    | none => acc) (fun _ => [])
  let categoryBlocks := CATEGORY_ORDER.flatMap (fun category =>
    if (byCat category).length = 0 then []
    else
      [eqRow, "// " ++ capitalizeFirst (categoryName category), eqRow, ""] ++
      (byCat category).flatMap (fun key =>
        match mapGet parsed.contentTypes key with
        | none => []
        | some ct =>
          let ctCode := (generateContentType ct parsed [] verboseGeneration).1
          let jsDoc := generateJsDoc ct.definition
          (if jsDoc ≠ "" then [jsDoc] else []) ++ [ctCode, ""] ++
          (parsed.displayTemplates.filter (fun t => t.contentType = key)).flatMap
            (fun t => [generateDisplayTemplate t, ""])))
  let registryBlock :=
    if withRegistry then
      [eqRow, "// Registry", eqRow, ""] ++
      allContentTypesLines byCat ++
      allDisplayTemplatesLines (registryTemplateExports parsed) ++
      initRoutineLines
    else []
  String.intercalate nls (importBlock ++ [""] ++ categoryBlocks ++ registryBlock)

/-- Generate the registry file of multi-file mode: header comment, SDK
import, imports of all generated constants from the root index, the two
registry arrays and the initialization routine.  The source also collects
a list of content-type export names it never reads; that dead collection
is not modelled. -/
def generateRegistryFile (parsed : ParsedTypes) : String :=
  let header :=
    ["/**",
     " * Content Type and Display Template Registry Initialization",
     " * Auto-generated by optimizely-cms-typegen",
     " */",
     "",
     "import \x7b",
     "  initContentTypeRegistry,",
     "  initDisplayTemplateRegistry,",
     "  BlankExperienceContentType,",
     "  BlankSectionContentType,",
     "\x7d from " ++ squoteS ++ "@optimizely/cms-sdk" ++ squoteS ++ ";",
     ""]
  let templateExports := registryTemplateExports parsed
  let ctNames : Category → List String := fun c =>
    (parsed.byCategory c).map (fun ct => toConstantName ct.definition.key)
  let ctImportBlock :=
    ["// Import all generated content types", "import \x7b"] ++
    CATEGORY_ORDER.flatMap (fun category =>
      if (parsed.byCategory category).length > 0 then
        ("  // " ++ capitalizeFirst (categoryName category)) ::
          (ctNames category).map (fun n => "  " ++ n ++ ",")
      else []) ++
    ["\x7d from " ++ squoteS ++ "./index" ++ squoteS ++ ";", ""]
  let templateImportBlock :=
    if templateExports.length > 0 then
      ["// Import display templates", "import \x7b"] ++
      templateExports.map (fun n => "  " ++ n ++ ",") ++
      ["\x7d from " ++ squoteS ++ "./index" ++ squoteS ++ ";", ""]
    else []
  String.intercalate nls (header ++ ctImportBlock ++ templateImportBlock ++
    allContentTypesLines ctNames ++
    allDisplayTemplatesLines templateExports ++
    initRoutineLines)

/-- Join two path segments; models path.join on the segments used here. -/
def joinPath (a b : String) : String := a ++ "/" ++ b

/-- Generate all output artifacts as (target path, text) pairs, in the
order the source writes them: single-file mode produces one artifact at
the caller-supplied path; multi-file mode produces, for each non-empty
category in fixed order, one file per content type followed by the
category index, then the root index, then optionally the registry.
Directory creation and the writes themselves are external collaborators. -/
def generate (parsed : ParsedTypes) (options : GeneratorOptions) : List (String × String) :=
  if options.singleFile then
    [(options.outdir, generateSingleFile parsed options.withRegistry options.verboseGeneration)]
  else
    (CATEGORY_ORDER.flatMap (fun category =>
      let types := parsed.byCategory category
      if types.length = 0 then []
      else
        (types.map (fun ct =>
          (joinPath (joinPath options.outdir (categoryName category)) (ct.definition.key ++ ".ts"),
           generateFile ct parsed parsed.displayTemplates options.verboseGeneration))) ++
        [(joinPath (joinPath options.outdir (categoryName category)) "index.ts",
          generateIndexFile types parsed.displayTemplates)])) ++
    [(joinPath options.outdir "index.ts", generateRootIndexFile parsed)] ++
    (if options.withRegistry then
      [(joinPath options.outdir "registry.ts", generateRegistryFile parsed)]
    else [])

/-- The full pipeline on a structured input document: parse, then emit
with the given options. -/
def runPipeline (data : TypesJson) (options : GeneratorOptions) : List (String × String) :=
  generate (parseTypesJson data) options

/-! ## Structural re-parsing of emitted string literals

Modelled from the spec: the round-trip property speaks of "structurally
re-parsing" the emitted literal text, and no parser exists in the
repository; the following functions model the TypeScript single-quoted
string-literal semantics used for that re-parsing (escape sequences map to
their standard characters, an unrecognized escape yields the escaped
character itself, an unescaped quote terminates the literal, and a raw
line terminator is not permitted).  The numeric escapes \x and \u are not
needed on the characters considered and are not modelled. -/

/-- Character denoted by a single-character escape sequence. -/
def unescapeChar (c : Char) : Char :=
  if c = Char.ofNat 110 then nlc
  else if c = Char.ofNat 116 then Char.ofNat 9
  else if c = Char.ofNat 114 then Char.ofNat 13
  else if c = Char.ofNat 98 then Char.ofNat 8
  else if c = Char.ofNat 102 then Char.ofNat 12
  else if c = Char.ofNat 118 then Char.ofNat 11
  else if c = Char.ofNat 48 then Char.ofNat 0
  else c

/-- Parse the body of a single-quoted literal after the opening quote.
Succeeds only when the closing quote ends the input exactly. -/
def tsUnescapeBody : List Char → Option (List Char)
  | [] => none
  | c :: cs =>
    if c = squote then (if cs.isEmpty then some [] else none)
    else if c = bslash then
      match cs with
      | [] => none
      | e :: cs2 =>
        match tsUnescapeBody cs2 with
        | some r => some (unescapeChar e :: r)
        | none => none
    else if c = nlc ∨ c = Char.ofNat 13 then none
    else
      match tsUnescapeBody cs with
      | some r => some (c :: r)
      | none => none

/-- Structurally re-parse an emitted single-quoted string literal. -/
def parseStringLiteral (s : String) : Option String :=
  match s.data with
  | c :: cs => if c = squote then (tsUnescapeBody cs).map String.mk else none
  | [] => none

/-! ## Graph notions for the dependency orderer -/

/-- Edge of the present-in-model dependency graph: `a` depends on `b`
when `b` occurs in the dependency list of `a` and `b` is itself present in
the model. -/
def dependsOn (m : List (String × CategorizedContentType)) (a b : String) : Prop :=
  (∃ ct, mapGet m a = some ct ∧ b ∈ ct.dependencies) ∧ b ∈ keysOf m

/-- Acyclicity of the present-in-model dependency graph. -/
def Acyclic (m : List (String × CategorizedContentType)) : Prop :=
  ∀ k, ¬ Relation.TransGen (dependsOn m) k k

/-- Invariant of the traversal relative to the in-progress stack `S`:
the output is duplicate-free, contains only model keys, lists every
dependency of an emitted key before that key, and the visited set consists
of emitted keys, in-progress keys and visited dangling keys; in-progress
keys are visited model keys not yet emitted. -/
def GoodState (m : List (String × CategorizedContentType)) (S : List String)
    (st : VisitState) : Prop :=
  st.result.Nodup ∧
  (∀ a ∈ st.result, a ∈ keysOf m) ∧
  (∀ l1 a l2, st.result = l1 ++ a :: l2 → ∀ b, dependsOn m a b → b ∈ l1) ∧
  (∀ x ∈ st.visited, x ∈ st.result ∨ x ∈ S ∨ x ∉ keysOf m) ∧
  (∀ x ∈ st.result, x ∈ st.visited) ∧
  (∀ x ∈ S, x ∈ st.visited ∧ x ∈ keysOf m ∧ x ∉ st.result)

/-- Well-formedness of the in-progress stack: consecutive entries are
related by a dependency edge, the shallower depending on the deeper. -/
def StackOK (m : List (String × CategorizedContentType)) (S : List String) : Prop :=
  List.Chain' (fun a b => dependsOn m b a) S

/-! ## Specification-side comparison definitions -/

/-- Default value of each elidable property field as stated by the
specification table. -/
def defaultValueForSpec : String → Value
  | "sortOrder" => .vnum 0
  | "maxLength" => .vnum 255
  | "allowedTypes" => .varr []
  | "restrictedTypes" => .varr []
  | "localized" => .vbool false
  | "required" => .vbool false
  | "group" => .vstr "content"
  | _ => .vnull

/-- Names of the elidable property fields of the fixed default table. -/
def defaultTableKeys : List String :=
  ["sortOrder", "maxLength", "allowedTypes", "restrictedTypes", "localized", "required", "group"]

/-- The categorized content types produced from an input document in input
order, before insertion into the map and the category groups. -/
def processContentTypes (data : TypesJson) : List CategorizedContentType :=
  (data.contentTypes.getD []).filterMap (fun ct0 =>
    let ct := normalizeContentType ct0
    match categorizeContentType ct with
    | none => none
    | some category =>
      some { definition := ct, category := category,
             dependencies := extractDependencies ct.properties })

/-- The artifact path sequence of multi-file mode as stated by the
specification: for each non-empty category in fixed order, one path per
content type in the category group order followed by the category index,
then the root index, then the optional registry. -/
def artifactPathsSpec (parsed : ParsedTypes) (options : GeneratorOptions) : List String :=
  CATEGORY_ORDER.flatMap (fun category =>
    if (parsed.byCategory category).length = 0 then []
    else
      ((parsed.byCategory category).map (fun ct =>
        options.outdir ++ "/" ++ categoryName category ++ "/" ++ ct.definition.key ++ ".ts")) ++
      [options.outdir ++ "/" ++ categoryName category ++ "/index.ts"]) ++
  [options.outdir ++ "/index.ts"] ++
  (if options.withRegistry then [options.outdir ++ "/registry.ts"] else [])

/-! ## Concrete inputs used by witnesses and counterexamples -/

/-- Two-node acyclic model: A depends on B. -/
def exA : CategorizedContentType :=
  { definition := { key := "A", baseType := "_component" }, category := .blocks,
    dependencies := ["B"] }

/-- Second node of the two-node model. -/
def exB : CategorizedContentType :=
  { definition := { key := "B", baseType := "_component" }, category := .elements,
    dependencies := [] }

/-- The two-node acyclic parsed model. -/
def exParsed : ParsedTypes :=
  { contentTypes := [("A", exA), ("B", exB)], displayTemplates := [],
    byCategory := fun _ => [] }

/-- Array property with a component item referencing FeatureItemElement. -/
def featProp : PropObj :=
  [("type", Value.vstr "array"),
   ("items", Value.vobj [("type", Value.vstr "component"),
                         ("contentType", Value.vstr "FeatureItemElement")])]

/-- Array property with a component item referencing an absent key. -/
def missProp : PropObj :=
  [("type", Value.vstr "array"),
   ("items", Value.vobj [("type", Value.vstr "component"),
                         ("contentType", Value.vstr "Nope")])]

/-- The referenced element content type. -/
def featCt : CategorizedContentType :=
  { definition := { key := "FeatureItemElement", baseType := "_component" },
    category := .elements, dependencies := [] }

/-- Model containing FeatureItemElement and one display template whose
referenced content type is absent. -/
def featParsed : ParsedTypes :=
  { contentTypes := [("FeatureItemElement", featCt)],
    displayTemplates := [{ key := "T1", contentType := "Missing" }],
    byCategory := fun _ => [] }

/-- Property object with a defaulted sortOrder, used by the elision
witness. -/
def sortProp : PropObj := [("sortOrder", Value.vnum 0), ("type", Value.vstr "string")]

/-- Empty parsed model. -/
def emptyParsed : ParsedTypes :=
  { contentTypes := [], displayTemplates := [], byCategory := fun _ => [] }

/-- Input document with two content-type definitions sharing the key A. -/
def dupData : TypesJson :=
  { contentTypes := some
      [{ key := "A", baseType := "_component", displayName := some "first" },
       { key := "A", baseType := "_component", displayName := some "second" }] }

/-- The two-character string of a backslash followed by the letter a. -/
def bsA : String := String.mk [bslash, 'a']

/-- Property record without a name field, used by the normalization
witness. -/
def namelessRecord : PropObj := [("type", Value.vstr "string")]

/-- Content type whose property collection arrives in sequence form with
a single nameless record. -/
def namelessCt : ContentTypeDefinition :=
  { key := "X", baseType := "_component",
    properties := some (.asArray [namelessRecord]) }

/-! ## Basic map lemmas -/

theorem mapGet_mapSet_self {α : Type} (m : List (String × α)) (k : String) (v : α) :
    mapGet (mapSet m k v) k = some v := by
  induction m with
  | nil => simp [mapSet, mapGet]
  | cons p rest ih =>
    rw [mapSet]
    by_cases h : p.1 = k
    · rw [if_pos h, mapGet, if_pos h]
    · rw [if_neg h, mapGet, if_neg h]
      exact ih

theorem mapGet_mapSet_ne {α : Type} (m : List (String × α)) (k : String) (v : α)
    (k2 : String) (h : k2 ≠ k) : mapGet (mapSet m k v) k2 = mapGet m k2 := by
  induction m with
  | nil =>
    rw [mapSet, mapGet, mapGet]
    rw [if_neg (fun hk : k = k2 => h hk.symm)]
    rfl
  | cons p rest ih =>
    rw [mapSet]
    by_cases hp : p.1 = k
    · rw [if_pos hp, mapGet, mapGet]
      have hp2 : (p.1 = k2) = False := by
        simp only [eq_iff_iff, iff_false]
        intro hc
        exact h (hc ▸ hp.symm ▸ rfl)
      by_cases hq : p.1 = k2
      · exact absurd hq (by simp [hp2])
      · rw [if_neg hq, if_neg hq]
    · rw [if_neg hp, mapGet, mapGet]
      by_cases hq : p.1 = k2
      · rw [if_pos hq, if_pos hq]
      · rw [if_neg hq, if_neg hq]
        exact ih

theorem mem_keys_of_mapGet_isSome {α : Type} {m : List (String × α)} {k : String}
    (h : (mapGet m k).isSome = true) : k ∈ keysOf m := by
  rcases Option.isSome_iff_exists.mp h with ⟨v, hv⟩
  exact mapGet_some_mem_keys hv

theorem mapGet_isSome_of_mem_keys {α : Type} {m : List (String × α)} {k : String}
    (h : k ∈ keysOf m) : (mapGet m k).isSome = true := by
  induction m with
  | nil => simp [keysOf] at h
  | cons p rest ih =>
    rw [mapGet]
    by_cases hp : p.1 = k
    · rw [if_pos hp]
      rfl
    · rw [if_neg hp]
      apply ih
      simp only [keysOf, List.map_cons, List.mem_cons] at h
      rcases h with h | h
      · exact absurd h.symm hp
      · exact h

theorem mapGet_none_notin_keys {α : Type} {m : List (String × α)} {k : String}
    (h : mapGet m k = none) : ¬ k ∈ keysOf m := by
  intro hk
  have := mapGet_isSome_of_mem_keys hk
  rw [h] at this
  cases this

/-! ## C1: categorization -/

/-- C1.  Categorization is a total function of (baseType, key) following
the fixed rule order: a baseType in the skip set \x7b_media, _image,
_video\x7d yields skip regardless of key; else _page yields pages; else
for _component a key ending in Settings yields settings, a key ending in
Element yields elements, and otherwise blocks; any other baseType yields
blocks.  The embedded categorizer agrees with this rule list, stated as
`categorySpec`, on every content type. -/
theorem categorizeContentType_matches_spec (ct : NormContentType) :
    categorizeContentType ct = categorySpec ct.baseType ct.key := by
  unfold categorizeContentType categorySpec SKIP_BASE_TYPES
  by_cases h1 : ct.baseType = "_media" <;>
    by_cases h2 : ct.baseType = "_image" <;>
      by_cases h3 : ct.baseType = "_video" <;>
        simp [h1, h2, h3, List.contains_cons]

/-! ## C3: dependency extraction -/

theorem dedupFirst_mem (l : List String) : ∀ k, k ∈ dedupFirst l ↔ k ∈ l := by
  induction l using dedupFirst.induct with
  | case1 => simp [dedupFirst]
  | case2 x xs ih =>
    intro k
    rw [dedupFirst]
    simp only [List.mem_cons]
    constructor
    · rintro (rfl | hk)
      · left
        rfl
      · right
        have hm := (ih k).mp hk
        exact (List.mem_filter.mp hm).1
    · rintro (rfl | hk)
      · left
        rfl
      · by_cases hxk : k = x
        · left
          exact hxk
        · right
          apply (ih k).mpr
          apply List.mem_filter.mpr
          exact ⟨hk, by simpa using hxk⟩

theorem dedupFirst_nodup (l : List String) : (dedupFirst l).Nodup := by
  induction l using dedupFirst.induct with
  | case1 => simp [dedupFirst]
  | case2 x xs ih =>
    rw [dedupFirst, List.nodup_cons]
    constructor
    · intro hx
      have hm := (dedupFirst_mem _ x).mp hx
      have := (List.mem_filter.mp hm).2
      simp at this
    · exact ih

/-- C3.  Dependency extraction returns exactly the deduplicated set of
content-type keys referenced by array properties with component item
descriptors or by direct component-typed properties: membership in the
result coincides with being referenced by some property, and the result
is duplicate-free, so a key referenced twice (once via array items, once
directly) occurs exactly once. -/
theorem extractDependencies_dedup_set (props : List (String × PropObj)) :
    (∀ k, k ∈ extractDependencies (some props) ↔
      ∃ kv ∈ props, arrayComponentRef kv.2 = some k ∨ directComponentRef kv.2 = some k) ∧
    (extractDependencies (some props)).Nodup := by
  constructor
  · intro k
    unfold extractDependencies
    rw [dedupFirst_mem]
    simp only [List.mem_flatMap, List.mem_append, Option.mem_toList, Option.mem_def]
  · unfold extractDependencies
    exact dedupFirst_nodup _

/-! ## C6: string serialization round trip -/

/-- C6 is refuted by the code: the serializer escapes only single quotes,
not backslashes.  On the two-character string backslash-a the emitted
literal is quote backslash a quote, whose structural re-parse under
TypeScript escape semantics is the one-character string a, not the
original value.  This contradicts both the code comment-level intent of a
serializer and the round-trip sentence of the specification, so the code
is in error on backslash-containing strings. -/
theorem serializeValue_escaping_code_bug :
    serializeValue (.vstr bsA) 0 = String.mk [squote, bslash, 'a', squote] ∧
    parseStringLiteral (serializeValue (.vstr bsA) 0) = some "a" ∧
    bsA ≠ "a" := by
  refine ⟨?_, ?_, ?_⟩
  · simp only [serializeValue]
    decide
  · simp only [serializeValue]
    decide
  · decide

/-! ## C5: default-value elision -/

theorem mapGet_foldl_skip_notmem {α : Type} (l : List (String × α))
    (skip : String → α → Bool) (acc : List (String × α)) (k : String)
    (hk : ¬ k ∈ keysOf l) :
    mapGet (l.foldl (fun acc kv =>
      if skip kv.1 kv.2 then acc else mapSet acc kv.1 kv.2) acc) k = mapGet acc k := by
  induction l generalizing acc with
  | nil => simp
  | cons p rest ih =>
    have hkp : k ≠ p.1 := by
      intro hc
      apply hk
      simp [keysOf, hc]
    have hkr : ¬ k ∈ keysOf rest := by
      intro hc
      apply hk
      simp only [keysOf, List.map_cons, List.mem_cons]
      right
      exact hc
    rw [List.foldl_cons]
    rw [ih _ hkr]
    by_cases hs : skip p.1 p.2 = true
    · rw [if_pos hs]
    · rw [Bool.not_eq_true] at hs
      rw [hs]
      simp only [Bool.false_eq_true, if_false]
      exact mapGet_mapSet_ne _ _ _ _ hkp

theorem mapGet_foldl_skip {α : Type} (l : List (String × α))
    (skip : String → α → Bool) (acc : List (String × α)) (k : String) (v : α)
    (hnd : (keysOf l).Nodup) (hv : mapGet l k = some v) :
    mapGet (l.foldl (fun acc kv =>
      if skip kv.1 kv.2 then acc else mapSet acc kv.1 kv.2) acc) k =
      (if skip k v then mapGet acc k else some v) := by
  induction l generalizing acc with
  | nil => simp [mapGet] at hv
  | cons p rest ih =>
    simp only [keysOf, List.map_cons, List.nodup_cons] at hnd
    rw [mapGet] at hv
    rw [List.foldl_cons]
    by_cases hp : p.1 = k
    · rw [if_pos hp] at hv
      injection hv with hv
      subst hv
      subst hp
      have hnotmem : ¬ p.1 ∈ keysOf rest := hnd.1
      rw [mapGet_foldl_skip_notmem _ _ _ _ hnotmem]
      by_cases hs : skip p.1 p.2 = true
      · rw [if_pos hs, if_pos hs]
      · rw [Bool.not_eq_true] at hs
        rw [hs]
        simp only [Bool.false_eq_true, if_false]
        exact mapGet_mapSet_self _ _ _
    · rw [if_neg hp] at hv
      rw [ih _ hnd.2 hv]
      by_cases hs : skip k v = true
      · rw [if_pos hs, if_pos hs]
        by_cases hps : skip p.1 p.2 = true
        · rw [if_pos hps]
        · rw [Bool.not_eq_true] at hps
          rw [hps]
          simp only [Bool.false_eq_true, if_false]
          exact mapGet_mapSet_ne _ _ _ _ (fun hc => hp hc.symm)
      · rw [if_neg hs, if_neg hs]

theorem twoIf_eq_skip {α : Type} {c1 c2 : Prop} [Decidable c1] [Decidable c2] (acc m : α) :
    (if c1 then acc else if c2 then acc else m) =
      (if (decide c1 || decide c2) = true then acc else m) := by
  by_cases h1 : c1 <;> by_cases h2 : c2 <;> simp [h1, h2]

theorem buildPropertyObject_fold_eq (prop : PropObj) (verboseGeneration : Bool) :
    (prop.foldl (fun acc kv =>
      if kv.1 = "items" ∧ (arrayComponentRef prop).isSome then acc
      else if ¬ verboseGeneration ∧ isDefaultPropertyValue kv.1 kv.2 = true then acc
      else mapSet acc kv.1 kv.2) []) =
    (prop.foldl (fun acc kv =>
      if (decide (kv.1 = "items" ∧ (arrayComponentRef prop).isSome) ||
          decide (¬ verboseGeneration ∧ isDefaultPropertyValue kv.1 kv.2 = true)) = true
      then acc else mapSet acc kv.1 kv.2) []) := by
  have hfun : (fun (acc : List (String × Value)) (kv : String × Value) =>
      if kv.1 = "items" ∧ (arrayComponentRef prop).isSome then acc
      else if ¬ verboseGeneration ∧ isDefaultPropertyValue kv.1 kv.2 = true then acc
      else mapSet acc kv.1 kv.2) =
    (fun acc kv =>
      if (decide (kv.1 = "items" ∧ (arrayComponentRef prop).isSome) ||
          decide (¬ verboseGeneration ∧ isDefaultPropertyValue kv.1 kv.2 = true)) = true
      then acc else mapSet acc kv.1 kv.2) := by
    funext acc kv
    exact twoIf_eq_skip _ _
  rw [hfun]

theorem buildPropertyObject_get_ne_items (prop : PropObj) (parsed : ParsedTypes)
    (refs : RefMap) (verboseGeneration : Bool) (k : String) (hk : k ≠ "items") :
    mapGet (buildPropertyObject prop parsed refs verboseGeneration).1 k =
      mapGet (prop.foldl (fun acc kv =>
        if kv.1 = "items" ∧ (arrayComponentRef prop).isSome then acc
        else if ¬ verboseGeneration ∧ isDefaultPropertyValue kv.1 kv.2 = true then acc
        else mapSet acc kv.1 kv.2) []) k := by
  unfold buildPropertyObject
  split
  · split
    · exact mapGet_mapSet_ne _ _ _ _ hk
    · exact mapGet_mapSet_ne _ _ _ _ hk
  · rfl

theorem isDefault_iff_defaultValue (k : String) (v : Value) (hk : k ∈ defaultTableKeys) :
    isDefaultPropertyValue k v = true ↔ v = defaultValueForSpec k := by
  have hne : ∀ n : Int, ∀ m : Int, (isNum (Value.vnum n) m = true) ↔ n = m := by
    intro n m
    simp [isNum]
  simp only [defaultTableKeys, List.mem_cons, List.not_mem_nil, or_false] at hk
  rcases hk with rfl | rfl | rfl | rfl | rfl | rfl | rfl <;>
    cases v <;>
      simp [isDefaultPropertyValue, isNum, isEmptyArr, isFalseV, isStrEq, defaultValueForSpec] <;>
        try rename_i arg <;> try cases arg <;> try simp

/-- C5.  For every property field of the fixed default table, the emitted
property object omits the field in non-verbose mode exactly when its
observed value equals the default of the table (stated through
`defaultValueForSpec`), and in verbose mode the field is never elided. -/
theorem buildPropertyObject_default_elision (prop : PropObj) (parsed : ParsedTypes)
    (refs : RefMap) (k : String) (v : Value)
    (hnd : (keysOf prop).Nodup) (hk : k ∈ defaultTableKeys)
    (hv : mapGet prop k = some v) :
    (isDefaultPropertyValue k v = true ↔ v = defaultValueForSpec k) ∧
    mapGet (buildPropertyObject prop parsed refs false).1 k =
      (if isDefaultPropertyValue k v = true then none else some v) ∧
    mapGet (buildPropertyObject prop parsed refs true).1 k = some v := by
  have hki : k ≠ "items" := by
    simp only [defaultTableKeys, List.mem_cons, List.not_mem_nil, or_false] at hk
    rcases hk with rfl | rfl | rfl | rfl | rfl | rfl | rfl <;> decide
  have hfold : ∀ vb : Bool,
      mapGet (prop.foldl (fun acc kv =>
        if (decide (kv.1 = "items" ∧ (arrayComponentRef prop).isSome) ||
            decide (¬ vb ∧ isDefaultPropertyValue kv.1 kv.2 = true)) = true
        then acc else mapSet acc kv.1 kv.2) []) k =
      (if (decide (k = "items" ∧ (arrayComponentRef prop).isSome) ||
            decide (¬ vb ∧ isDefaultPropertyValue k v = true)) = true
       then none else some v) := by
    intro vb
    exact mapGet_foldl_skip prop
      (fun a b => (decide (a = "items" ∧ (arrayComponentRef prop).isSome) ||
        decide (¬ vb ∧ isDefaultPropertyValue a b = true))) [] k v hnd hv
  refine ⟨isDefault_iff_defaultValue k v hk, ?_, ?_⟩
  · rw [buildPropertyObject_get_ne_items _ _ _ _ _ hki, buildPropertyObject_fold_eq]
    rw [hfold false]
    by_cases hd : isDefaultPropertyValue k v = true <;>
      simp [hki, hd]
  · rw [buildPropertyObject_get_ne_items _ _ _ _ _ hki, buildPropertyObject_fold_eq]
    rw [hfold true]
    simp [hki]

/-- Witness for C5 at the property object with a zero sortOrder: the
field is elided in non-verbose mode and kept in verbose mode. -/
theorem buildPropertyObject_default_elision_witness :
    (isDefaultPropertyValue "sortOrder" (Value.vnum 0) = true ↔
      Value.vnum 0 = defaultValueForSpec "sortOrder") ∧
    mapGet (buildPropertyObject sortProp emptyParsed [] false).1 "sortOrder" =
      (if isDefaultPropertyValue "sortOrder" (Value.vnum 0) = true then none
       else some (Value.vnum 0)) ∧
    mapGet (buildPropertyObject sortProp emptyParsed [] true).1 "sortOrder" =
      some (Value.vnum 0) :=
  buildPropertyObject_default_elision sortProp emptyParsed [] "sortOrder" (Value.vnum 0)
    (by decide) (by decide) rfl

/-! ## C4: dangling-reference handling -/

theorem foldl_append_filter_map {α β : Type} (l : List α) (p : α → Bool) (f : α → β)
    (acc : List β) :
    l.foldl (fun acc t => if p t then acc ++ [f t] else acc) acc =
      acc ++ (l.filter p).map f := by
  induction l generalizing acc with
  | nil => simp
  | cons a l ih =>
    rw [List.foldl_cons]
    by_cases hp : p a = true
    · rw [if_pos hp, ih, List.filter_cons, hp]
      simp
    · rw [Bool.not_eq_true] at hp
      rw [hp]
      simp only [Bool.false_eq_true, if_false, ih, List.filter_cons, hp]

theorem registryTemplateExports_eq (parsed : ParsedTypes) :
    registryTemplateExports parsed =
      (parsed.displayTemplates.filter (fun t => mapHas parsed.contentTypes t.contentType)).map
        (fun t => toConstantName t.key .DisplayTemplate) := by
  unfold registryTemplateExports
  rw [foldl_append_filter_map]
  simp

/-- C4.  Dangling references receive degraded handling and never fail: an
array property with a component item descriptor whose referenced key is
present in the model is emitted with the placeholder that serialization
and post-processing turn into a symbolic reference to the generated
identifier, and the cross-entity import is recorded; when the referenced
key is absent the literal items value is preserved unchanged; and a
display-template name is in the registry lists exactly when its referenced
content type is present in the model, so templates with absent referents
are excluded. -/
theorem dangling_reference_handling (prop : PropObj) (parsed : ParsedTypes)
    (refs : RefMap) (verboseGeneration : Bool) (refKey : String) (itemsVal : Value)
    (href : arrayComponentRef prop = some refKey)
    (hitems : mapGet prop "items" = some itemsVal) :
    (∀ refCt, mapGet parsed.contentTypes refKey = some refCt →
      mapGet (buildPropertyObject prop parsed refs verboseGeneration).1 "items" =
        some (.vobj [("type", .vstr "component"),
                     ("__contentTypeRef", .vstr (toConstantName refKey))]) ∧
      mapGet (buildPropertyObject prop parsed refs verboseGeneration).2 refKey =
        some { constantName := toConstantName refKey, category := refCt.category,
               fileName := refKey }) ∧
    (mapGet parsed.contentTypes refKey = none →
      mapGet (buildPropertyObject prop parsed refs verboseGeneration).1 "items" =
        some itemsVal) ∧
    (∀ name, name ∈ registryTemplateExports parsed ↔
      ∃ t ∈ parsed.displayTemplates,
        mapHas parsed.contentTypes t.contentType = true ∧
        name = toConstantName t.key .DisplayTemplate) := by
  refine ⟨?_, ?_, ?_⟩
  · intro refCt hct
    unfold buildPropertyObject
    rw [href, hitems]
    split
    · rename_i rk2 iv2 heq1 heq2
      injection heq1 with heq1
      injection heq2 with heq2
      subst heq1
      subst heq2
      split
      · rename_i heq
        rw [hct] at heq
        injection heq with heq
        subst heq
        exact ⟨mapGet_mapSet_self _ _ _, mapGet_mapSet_self _ _ _⟩
      · rename_i heq
        rw [hct] at heq
        cases heq
    · rename_i heq
      exact (heq refKey itemsVal rfl rfl).elim
  · intro hct
    unfold buildPropertyObject
    rw [href, hitems]
    split
    · rename_i rk2 iv2 heq1 heq2
      injection heq1 with heq1
      injection heq2 with heq2
      subst heq1
      subst heq2
      split
      · rename_i heq
        rw [hct] at heq
        cases heq
      · exact mapGet_mapSet_self _ _ _
    · rename_i heq
      exact (heq refKey itemsVal rfl rfl).elim
  · intro name
    rw [registryTemplateExports_eq]
    simp only [List.mem_map, List.mem_filter]
    constructor
    · rintro ⟨t, ⟨ht, hhas⟩, rfl⟩
      exact ⟨t, ht, hhas, rfl⟩
    · rintro ⟨t, ht, hhas, rfl⟩
      exact ⟨t, ⟨ht, hhas⟩, rfl⟩

/-- Witness for C4: the FeatureItemElement reference present in the model
is replaced by the placeholder for its generated identifier and the import
is recorded; the reference to the absent key Nope keeps its literal items
value. -/
theorem dangling_reference_handling_witness :
    (mapGet (buildPropertyObject featProp featParsed [] false).1 "items" =
      some (.vobj [("type", .vstr "component"),
                   ("__contentTypeRef", .vstr (toConstantName "FeatureItemElement"))]) ∧
     mapGet (buildPropertyObject featProp featParsed [] false).2 "FeatureItemElement" =
      some { constantName := toConstantName "FeatureItemElement", category := featCt.category,
             fileName := "FeatureItemElement" }) ∧
    mapGet (buildPropertyObject missProp featParsed [] false).1 "items" =
      some (Value.vobj [("type", Value.vstr "component"),
                        ("contentType", Value.vstr "Nope")]) :=
  ⟨(dangling_reference_handling featProp featParsed [] false "FeatureItemElement"
      (Value.vobj [("type", Value.vstr "component"),
                   ("contentType", Value.vstr "FeatureItemElement")])
      rfl rfl).1 featCt rfl,
   (dangling_reference_handling missProp featParsed [] false "Nope"
      (Value.vobj [("type", Value.vstr "component"),
                   ("contentType", Value.vstr "Nope")])
      rfl rfl).2.1 rfl⟩

/-! ## C10: normalization of an all-dropped sequence -/

theorem foldl_records_drop (rs : List PropObj) (h : ∀ r ∈ rs, mapGet r "name" = none) :
    ∀ acc : List (String × PropObj),
      rs.foldl (fun acc r =>
        match mapGet r "name" with
        | some (.vstr s) => if s ≠ "" then mapSet acc s (removeField r "name") else acc
        | _ => acc) acc = acc := by
  induction rs with
  | nil =>
    intro acc
    rfl
  | cons r rs ih =>
    intro acc
    rw [List.foldl_cons]
    have hr := h r (List.mem_cons_self r rs)
    have hstep : (match mapGet r "name" with
        | some (.vstr s) => if s ≠ "" then mapSet acc s (removeField r "name") else acc
        | _ => acc) = acc := by
      rw [hr]
    rw [hstep]
    exact ih (fun x hx => h x (List.mem_cons_of_mem _ hx)) acc

theorem buildContentTypeObject_no_props (defn : NormContentType) (parsed : ParsedTypes)
    (refs : RefMap) (vb : Bool) (h : defn.properties = none) :
    mapGet (buildContentTypeObject defn parsed refs vb).1 "properties" = none := by
  unfold buildContentTypeObject
  rw [h]
  cases hd : defn.displayName <;>
    cases hde : defn.description <;>
      cases hcb : defn.compositionBehaviors <;>
        simp only [] <;> (try split_ifs) <;>
          simp [mapGet_mapSet_ne, mapGet]

/-- C10.  When a property collection arrives in sequence form and every
record lacks a name (in particular when the sequence is empty), the
normalized result is the absent collection, not an empty keyed mapping,
and consequently the emitted content-type object carries no properties
field at all. -/
theorem normalizeProperties_all_dropped_absent (records : List PropObj)
    (h : ∀ r ∈ records, mapGet r "name" = none) :
    normalizeProperties (some (.asArray records)) = none ∧
    (∀ (ct : ContentTypeDefinition) (parsed : ParsedTypes) (refs : RefMap) (vb : Bool),
      ct.properties = some (.asArray records) →
      mapGet (buildContentTypeObject (normalizeContentType ct) parsed refs vb).1
        "properties" = none) := by
  have h1 : normalizeProperties (some (.asArray records)) = none := by
    simp only [normalizeProperties]
    rw [foldl_records_drop records h []]
    simp
  refine ⟨h1, ?_⟩
  intro ct parsed refs vb hct
  apply buildContentTypeObject_no_props
  show (normalizeContentType ct).properties = none
  unfold normalizeContentType
  simp only []
  rw [hct]
  exact h1

/-- Witness for C10 at a one-record sequence whose record lacks a name. -/
theorem normalizeProperties_all_dropped_absent_witness :
    normalizeProperties (some (.asArray [namelessRecord])) = none ∧
    mapGet (buildContentTypeObject (normalizeContentType namelessCt) emptyParsed [] false).1
      "properties" = none := by
  have h : ∀ r ∈ [namelessRecord], mapGet r "name" = none := by
    intro r hr
    rw [List.mem_singleton] at hr
    subst hr
    rfl
  exact ⟨(normalizeProperties_all_dropped_absent [namelessRecord] h).1,
         (normalizeProperties_all_dropped_absent [namelessRecord] h).2 namelessCt
           emptyParsed [] false rfl⟩

/-! ## C7: serializer layout -/

/-- C7.  A non-empty sequence serializes to the inline comma-separated
form exactly when no element serialization contains a line break and the
comma-joined width is under 60, and otherwise to one element per line one
indentation level (two spaces) deeper with trailing commas and the closing
bracket at the enclosing level; a non-empty mapping always serializes
multi-line with one key-value pair per line, the key left unquoted exactly
when it matches the simple identifier pattern.  The concrete conjuncts
exhibit the inline form, the quoted-key mapping form and the multi-line
sequence form. -/
theorem serializeValue_layout_spec :
    (∀ (x0 : Value) (rest : List Value) (ind : Nat),
      serializeValue (.varr (x0 :: rest)) ind =
        (let items := (x0 :: rest).map (fun x => serializeValue x (ind + 1))
         if (items.all fun i => !(strContains i nlc)) &&
             decide (strLen (String.intercalate ", " items) < 60) then
           "[" ++ String.intercalate ", " items ++ "]"
         else
           "[" ++ nls ++
             String.intercalate nls (items.map (fun item => spacesFor (ind + 1) ++ item ++ ",")) ++
             nls ++ spacesFor ind ++ "]")) ∧
    (∀ (f0 : String × Value) (rest : List (String × Value)) (ind : Nat),
      serializeValue (.vobj (f0 :: rest)) ind =
        (let propLines := (f0 :: rest).map (fun kv =>
           spacesFor (ind + 1) ++
             (if matchesIdentPattern kv.1 then kv.1 else squoteS ++ kv.1 ++ squoteS) ++
             ": " ++ serializeValue kv.2 (ind + 1) ++ ",")
         "\x7b" ++ nls ++ String.intercalate nls propLines ++ nls ++ spacesFor ind ++ "\x7d")) ∧
    serializeValue (.varr [.vnum 1, .vnum 2]) 0 = "[1, 2]" ∧
    serializeValue (.vobj [("a", .vnum 1), ("my-key", .vbool true)]) 0 =
      "\x7b\n  a: 1,\n  " ++ squoteS ++ "my-key" ++ squoteS ++ ": true,\n\x7d" ∧
    serializeValue (.varr [.vobj [("a", .vnum 1)]]) 0 =
      "[\n  \x7b\n    a: 1,\n  \x7d,\n]" := by
  have harr : ∀ (x0 : Value) (rest : List Value) (ind : Nat),
      serializeValue (.varr (x0 :: rest)) ind =
        (let items := (x0 :: rest).map (fun x => serializeValue x (ind + 1))
         if (items.all fun i => !(strContains i nlc)) &&
             decide (strLen (String.intercalate ", " items) < 60) then
           "[" ++ String.intercalate ", " items ++ "]"
         else
           "[" ++ nls ++
             String.intercalate nls (items.map (fun item => spacesFor (ind + 1) ++ item ++ ",")) ++
             nls ++ spacesFor ind ++ "]") := by
    intro x0 rest ind
    rw [serializeValue]
    simp only [List.attach_map_val (x0 :: rest) (fun v => serializeValue v (ind + 1))]
  have hobj : ∀ (f0 : String × Value) (rest : List (String × Value)) (ind : Nat),
      serializeValue (.vobj (f0 :: rest)) ind =
        (let propLines := (f0 :: rest).map (fun kv =>
           spacesFor (ind + 1) ++
             (if matchesIdentPattern kv.1 then kv.1 else squoteS ++ kv.1 ++ squoteS) ++
             ": " ++ serializeValue kv.2 (ind + 1) ++ ",")
         "\x7b" ++ nls ++ String.intercalate nls propLines ++ nls ++ spacesFor ind ++ "\x7d") := by
    intro f0 rest ind
    rw [serializeValue]
    simp only [List.attach_map_val (f0 :: rest) (fun kv =>
      spacesFor (ind + 1) ++
        (if matchesIdentPattern kv.1 then kv.1 else squoteS ++ kv.1 ++ squoteS) ++
        ": " ++ serializeValue kv.2 (ind + 1) ++ ",")]
  refine ⟨harr, hobj, ?_, ?_, ?_⟩
  · rw [harr]
    simp only [List.map_cons, List.map_nil]
    simp only [serializeValue]
    decide
  · rw [hobj]
    simp only [List.map_cons, List.map_nil]
    simp only [serializeValue]
    decide
  · rw [harr]
    simp only [List.map_cons, List.map_nil]
    simp only [hobj]
    simp only [List.map_cons, List.map_nil]
    simp only [serializeValue]
    decide

/-! ## C8: duplicate keys -/

theorem getLast?_cons_or {α : Type} (x : α) (l : List α) (d : Option α) :
    ((x :: l).getLast?).or d = (l.getLast?).or (some x) := by
  cases l with
  | nil => rfl
  | cons y ys =>
    rw [List.getLast?_cons_cons]
    cases h : (y :: ys).getLast? with
    | some c => rfl
    | none =>
      exfalso
      rw [List.getLast?_eq_none_iff] at h
      cases h

theorem parse_fold_char (l : List ContentTypeDefinition)
    (accm : List (String × CategorizedContentType))
    (accf : Category → List CategorizedContentType) :
    (∀ k, mapGet (l.foldl (fun acc ct0 =>
        let ct := normalizeContentType ct0
        match categorizeContentType ct with
        | none => acc
        | some category =>
          let dependencies := extractDependencies ct.properties
          let categorized : CategorizedContentType :=
            { definition := ct, category := category, dependencies := dependencies }
          (mapSet acc.1 ct.key categorized,
           fun c => if c = category then acc.2 c ++ [categorized] else acc.2 c))
      (accm, accf)).1 k =
      (((l.filterMap (fun ct0 =>
          let ct := normalizeContentType ct0
          match categorizeContentType ct with
          | none => none
          | some category =>
            some { definition := ct, category := category,
                   dependencies := extractDependencies ct.properties })).filter
          (fun c => decide (c.definition.key = k))).getLast?).or (mapGet accm k)) ∧
    (∀ c, (l.foldl (fun acc ct0 =>
        let ct := normalizeContentType ct0
        match categorizeContentType ct with
        | none => acc
        | some category =>
          let dependencies := extractDependencies ct.properties
          let categorized : CategorizedContentType :=
            { definition := ct, category := category, dependencies := dependencies }
          (mapSet acc.1 ct.key categorized,
           fun c => if c = category then acc.2 c ++ [categorized] else acc.2 c))
      (accm, accf)).2 c =
      accf c ++ (l.filterMap (fun ct0 =>
          let ct := normalizeContentType ct0
          match categorizeContentType ct with
          | none => none
          | some category =>
            some { definition := ct, category := category,
                   dependencies := extractDependencies ct.properties })).filter
        (fun x => decide (x.category = c))) := by
  have hdecp : ∀ (x : CategorizedContentType) (k : String), x.definition.key = k →
      (decide (x.definition.key = k)) = true := by
    intro x k hx
    simp [hx]
  have hdecn : ∀ (x : CategorizedContentType) (k : String), x.definition.key ≠ k →
      ¬ (decide (x.definition.key = k)) = true := by
    intro x k hx
    simp [hx]
  have hcatp : ∀ (x : CategorizedContentType) (c : Category), x.category = c →
      (decide (x.category = c)) = true := by
    intro x c hx
    simp [hx]
  have hcatn : ∀ (x : CategorizedContentType) (c : Category), x.category ≠ c →
      ¬ (decide (x.category = c)) = true := by
    intro x c hx
    simp [hx]
  induction l generalizing accm accf with
  | nil =>
    constructor
    · intro k
      simp only [List.foldl_nil, List.filterMap_nil, List.filter_nil, List.getLast?_nil,
        Option.or]
    · intro c
      simp only [List.foldl_nil, List.filterMap_nil, List.filter_nil, List.append_nil]
  | cons ct0 l ih =>
    rw [List.foldl_cons, List.filterMap_cons]
    dsimp only
    cases hcat : categorizeContentType (normalizeContentType ct0) with
    | none => exact ih accm accf
    | some category =>
      dsimp only
      constructor
      · intro k
        rw [(ih _ _).1 k]
        by_cases hk : (normalizeContentType ct0).key = k
        · rw [@List.filter_cons_of_pos CategorizedContentType
            (fun c => decide (c.definition.key = k))
            ⟨normalizeContentType ct0, category,
              extractDependencies (normalizeContentType ct0).properties⟩ _
            (hdecp ⟨normalizeContentType ct0, category,
              extractDependencies (normalizeContentType ct0).properties⟩ k hk)]
          rw [getLast?_cons_or]
          dsimp only
          refine congrArg _ ?_
          rw [← hk]
          exact mapGet_mapSet_self _ _ _
        · rw [@List.filter_cons_of_neg CategorizedContentType
            (fun c => decide (c.definition.key = k))
            ⟨normalizeContentType ct0, category,
              extractDependencies (normalizeContentType ct0).properties⟩ _
            (hdecn ⟨normalizeContentType ct0, category,
              extractDependencies (normalizeContentType ct0).properties⟩ k hk)]
          dsimp only
          refine congrArg _ ?_
          exact mapGet_mapSet_ne _ _ _ _ (fun hc => hk hc.symm)
      · intro c
        rw [(ih _ _).2 c]
        by_cases hc : category = c
        · rw [@List.filter_cons_of_pos CategorizedContentType
            (fun x => decide (x.category = c))
            ⟨normalizeContentType ct0, category,
              extractDependencies (normalizeContentType ct0).properties⟩ _
            (hcatp ⟨normalizeContentType ct0, category,
              extractDependencies (normalizeContentType ct0).properties⟩ c hc)]
          dsimp only
          rw [if_pos hc.symm]
          simp
        · rw [@List.filter_cons_of_neg CategorizedContentType
            (fun x => decide (x.category = c))
            ⟨normalizeContentType ct0, category,
              extractDependencies (normalizeContentType ct0).properties⟩ _
            (hcatn ⟨normalizeContentType ct0, category,
              extractDependencies (normalizeContentType ct0).properties⟩ c hc)]
          dsimp only
          rw [if_neg (fun hcc => hc hcc.symm)]

/-- C8 counterexample: on an input with two content-type definitions
sharing the key A, the per-category grouping holds two entries for that
key (the earlier definition is not overwritten there), while the key map
holds the later definition; the claim that mapping and grouping both
reflect only the later definition, each key occurring exactly once, is
false on this input. -/
theorem parseTypesJson_duplicate_counterexample :
    ((parseTypesJson dupData).byCategory .blocks).length = 2 ∧
    (mapGet (parseTypesJson dupData).contentTypes "A").map
      (fun c => c.definition.displayName) = some (some "second") := by
  constructor
  · have hlen : ∀ l : List CategorizedContentType, (l.mergeSort keyLe).length = l.length :=
      fun l => (List.mergeSort_perm l keyLe).length_eq
    simp only [parseTypesJson, hlen]
    rfl
  · simp only [parseTypesJson]
    rfl

/-- C8 amended.  The key-to-content-type mapping reflects only the later
of two definitions sharing a key: looking a key up yields the last
processed definition with that key.  The per-category grouping, however,
retains one entry per non-skipped input definition (sorted by key), so a
duplicated key occurs once per definition there, not exactly once. -/
theorem parseTypesJson_duplicate_semantics (data : TypesJson) :
    (∀ k, mapGet (parseTypesJson data).contentTypes k =
      ((processContentTypes data).filter (fun c => decide (c.definition.key = k))).getLast?) ∧
    (∀ c, (parseTypesJson data).byCategory c =
      ((processContentTypes data).filter (fun x => decide (x.category = c))).mergeSort keyLe) := by
  have h := parse_fold_char (data.contentTypes.getD []) [] (fun _ => [])
  constructor
  · intro k
    have h1 := h.1 k
    have hor : ∀ o : Option CategorizedContentType,
        o.or (mapGet ([] : List (String × CategorizedContentType)) k) = o := by
      intro o
      cases o <;> rfl
    rw [hor] at h1
    exact h1
  · intro c
    exact congrArg (fun l => l.mergeSort keyLe) (h.2 c)

/-! ## C9: determinism and fixed artifact order -/

/-- C9.  The pipeline is deterministic (a pure function of the input
document and options), every category group of the parsed model is sorted
by key, and in multi-file mode the artifact path sequence is exactly the
fixed enumeration of the specification: categories in fixed order, content
types in sorted key order within each category, the category index after
its types, then the root index, then the optional registry. -/
theorem runPipeline_deterministic_ordered (data : TypesJson) (options : GeneratorOptions) :
    runPipeline data options = runPipeline data options ∧
    (∀ c, List.Pairwise (fun a b => keyLe a b = true) ((parseTypesJson data).byCategory c)) ∧
    (options.singleFile = false →
      (generate (parseTypesJson data) options).map Prod.fst =
        artifactPathsSpec (parseTypesJson data) options) := by
  refine ⟨rfl, ?_, ?_⟩
  · intro c
    have htrans : ∀ (a b c2 : CategorizedContentType),
        keyLe a b = true → keyLe b c2 = true → keyLe a c2 = true := by
      intro a b c2 hab hbc
      simp only [keyLe, decide_eq_true_eq] at hab hbc ⊢
      exact le_trans hab hbc
    have htot : ∀ (a b : CategorizedContentType), (keyLe a b || keyLe b a) = true := by
      intro a b
      simp only [keyLe]
      rcases le_total a.definition.key b.definition.key with h | h
      · simp [h]
      · simp [h]
    exact List.sorted_mergeSort htrans htot _
  · intro hsf
    have hcat : ∀ c : Category,
        ((if ((parseTypesJson data).byCategory c).length = 0 then []
          else (((parseTypesJson data).byCategory c).map (fun ct =>
            (joinPath (joinPath options.outdir (categoryName c)) (ct.definition.key ++ ".ts"),
             generateFile ct (parseTypesJson data) (parseTypesJson data).displayTemplates
               options.verboseGeneration))) ++
            [(joinPath (joinPath options.outdir (categoryName c)) "index.ts",
              generateIndexFile ((parseTypesJson data).byCategory c)
                (parseTypesJson data).displayTemplates)]).map Prod.fst) =
        (if ((parseTypesJson data).byCategory c).length = 0 then []
         else (((parseTypesJson data).byCategory c).map (fun ct =>
           options.outdir ++ "/" ++ categoryName c ++ "/" ++ ct.definition.key ++ ".ts")) ++
           [options.outdir ++ "/" ++ categoryName c ++ "/index.ts"]) := by
      intro c
      by_cases hlen : ((parseTypesJson data).byCategory c).length = 0
      · simp [hlen]
      · simp only [hlen, if_false, List.map_append, List.map_map, List.map_cons, List.map_nil]
        simp [joinPath, Function.comp, String.append_assoc]
    unfold generate artifactPathsSpec
    rw [hsf]
    simp only [Bool.false_eq_true, if_false]
    simp only [CATEGORY_ORDER, List.flatMap_cons, List.flatMap_nil, List.append_nil,
      List.map_append, hcat]
    by_cases hreg : options.withRegistry = true <;>
      simp [hreg, joinPath, String.append_assoc]

/-- Witness for C9 at a concrete input and options: the multi-file
artifact paths follow the fixed specification order. -/
theorem runPipeline_deterministic_ordered_witness :
    (generate (parseTypesJson dupData) { outdir := "out" }).map Prod.fst =
      artifactPathsSpec (parseTypesJson dupData) { outdir := "out" } :=
  (runPipeline_deterministic_ordered dupData { outdir := "out" }).2.2 rfl

/-! ## C2: topological ordering -/

theorem visitK_mem_visited (m : List (String × CategorizedContentType)) (k : String)
    (st : VisitState) (h : k ∈ st.visited) : (visitK m k st).1 = st := by
  rw [visitK]
  simp [h]

theorem visitK_none (m : List (String × CategorizedContentType)) (k : String)
    (st : VisitState) (h : ¬ k ∈ st.visited) (hm : mapGet m k = none) :
    (visitK m k st).1 = ⟨k :: st.visited, st.result⟩ := by
  rw [visitK]
  simp only [h, dite_false, dif_neg, not_false_iff]
  split
  · rfl
  · rename_i heq
    rw [hm] at heq
    cases heq

theorem visitK_some (m : List (String × CategorizedContentType)) (k : String)
    (st : VisitState) (ct : CategorizedContentType)
    (h : ¬ k ∈ st.visited) (hm : mapGet m k = some ct) :
    (visitK m k st).1 =
      ⟨(visitDeps m ct.dependencies ⟨k :: st.visited, st.result⟩).1.visited,
       (visitDeps m ct.dependencies ⟨k :: st.visited, st.result⟩).1.result ++ [k]⟩ := by
  rw [visitK]
  simp only [h, dite_false, dif_neg, not_false_iff]
  split
  · rename_i heq
    rw [hm] at heq
    cases heq
  · rename_i ct2 heq
    rw [hm] at heq
    cases heq
    rfl

theorem visitDeps_nil (m : List (String × CategorizedContentType)) (st : VisitState) :
    (visitDeps m [] st).1 = st := by
  rw [visitDeps]

theorem visitDeps_cons (m : List (String × CategorizedContentType)) (d : String)
    (rest : List String) (st : VisitState) :
    (visitDeps m (d :: rest) st).1 = (visitDeps m rest (visitK m d st).1).1 := by
  rw [visitDeps]

theorem chain_stack_transGen (m : List (String × CategorizedContentType))
    (x : String) (xs : List String)
    (hch : List.Chain' (fun a b => dependsOn m b a) (x :: xs)) :
    ∀ b ∈ xs, Relation.TransGen (dependsOn m) b x := by
  induction xs generalizing x with
  | nil =>
    intro b hb
    simp at hb
  | cons y ys ih =>
    intro b hb
    have h1 : dependsOn m y x := (List.chain'_cons.mp hch).1
    rcases List.mem_cons.mp hb with rfl | hb2
    · exact Relation.TransGen.single h1
    · exact (ih y (List.chain'_cons.mp hch).2 b hb2).tail h1

theorem topo_append (r : List String) (k : String)
    (m : List (String × CategorizedContentType))
    (hr : ∀ l1 a l2, r = l1 ++ a :: l2 → ∀ b, dependsOn m a b → b ∈ l1)
    (hk : ∀ b, dependsOn m k b → b ∈ r) :
    ∀ l1 a l2, r ++ [k] = l1 ++ a :: l2 → ∀ b, dependsOn m a b → b ∈ l1 := by
  intro l1 a l2 hsplit b hab
  rcases List.append_eq_append_iff.mp hsplit with ⟨a', ha1, ha2⟩ | ⟨c', hc1, hc2⟩
  · cases a' with
    | nil =>
      simp only [List.nil_append] at ha2
      injection ha2 with hk1 hl2
      subst hk1
      have := hk b hab
      rw [ha1, List.append_nil]
      exact this
    | cons x xs =>
      exfalso
      have := congrArg List.length ha2
      simp at this
  · cases c' with
    | nil =>
      simp only [List.nil_append] at hc2
      injection hc2 with hk1 hl2
      subst hk1
      have := hk b hab
      rw [List.append_nil] at hc1
      rw [← hc1]
      exact this
    | cons x xs =>
      have hc2' : a = x ∧ l2 = xs ++ [k] := by
        rw [List.cons_append] at hc2
        exact ⟨by injection hc2, by injection hc2⟩
      obtain ⟨rfl, _⟩ := hc2'
      exact hr l1 a xs hc1 b hab

theorem visit_spec (m : List (String × CategorizedContentType)) (hacyc : Acyclic m) :
    ∀ n : Nat,
      (∀ (st : VisitState) (S : List String) (k : String),
        unvisitedCount m st.visited ≤ n →
        GoodState m S st → StackOK m S →
        (S = [] ∨ ∃ p S0, S = p :: S0 ∧ ∃ ct, mapGet m p = some ct ∧ k ∈ ct.dependencies) →
        GoodState m S (visitK m k st).1 ∧
        (∃ t, (visitK m k st).1.result = st.result ++ t) ∧
        k ∈ (visitK m k st).1.visited ∧
        (k ∈ keysOf m → k ∈ (visitK m k st).1.result ∨ k ∈ S)) ∧
      (∀ (ds : List String) (st : VisitState) (S : List String) (p : String),
        unvisitedCount m st.visited ≤ n →
        GoodState m (p :: S) st → StackOK m (p :: S) →
        (∃ ct, mapGet m p = some ct ∧ ∀ d ∈ ds, d ∈ ct.dependencies) →
        GoodState m (p :: S) (visitDeps m ds st).1 ∧
        (∃ t, (visitDeps m ds st).1.result = st.result ++ t) ∧
        (∀ d ∈ ds, d ∈ (visitDeps m ds st).1.visited) ∧
        (∀ d ∈ ds, d ∈ keysOf m → d ∈ (visitDeps m ds st).1.result ∨ d ∈ p :: S)) := by
  intro n
  induction n using Nat.strong_induction_on with
  | _ n IH =>
  have hP : ∀ (st : VisitState) (S : List String) (k : String),
      unvisitedCount m st.visited ≤ n →
      GoodState m S st → StackOK m S →
      (S = [] ∨ ∃ p S0, S = p :: S0 ∧ ∃ ct, mapGet m p = some ct ∧ k ∈ ct.dependencies) →
      GoodState m S (visitK m k st).1 ∧
      (∃ t, (visitK m k st).1.result = st.result ++ t) ∧
      k ∈ (visitK m k st).1.visited ∧
      (k ∈ keysOf m → k ∈ (visitK m k st).1.result ∨ k ∈ S) := by
    intro st S k hn hGood hStack hcall
    by_cases hv : k ∈ st.visited
    · rw [visitK_mem_visited m k st hv]
      refine ⟨hGood, ⟨[], by simp⟩, hv, ?_⟩
      intro hkk
      rcases hGood.2.2.2.1 k hv with h | h | h
      · exact Or.inl h
      · exact Or.inr h
      · exact absurd hkk h
    · cases hm : mapGet m k with
      | none =>
        rw [visitK_none m k st hv hm]
        have hknotkeys : ¬ k ∈ keysOf m := mapGet_none_notin_keys hm
        obtain ⟨g1, g2, g3, g4, g5, g6⟩ := hGood
        refine ⟨⟨g1, g2, g3, ?_, ?_, ?_⟩, ⟨[], by simp⟩, List.mem_cons_self _ _, ?_⟩
        · intro x hx
          rcases List.mem_cons.mp hx with rfl | hx2
          · exact Or.inr (Or.inr hknotkeys)
          · exact g4 x hx2
        · intro x hx
          exact List.mem_cons_of_mem _ (g5 x hx)
        · intro x hx
          obtain ⟨ha, hb, hc⟩ := g6 x hx
          exact ⟨List.mem_cons_of_mem _ ha, hb, hc⟩
        · intro hkk
          exact absurd hkk hknotkeys
      | some ct =>
        have hkkeys : k ∈ keysOf m := mapGet_some_mem_keys hm
        have hstrict : unvisitedCount m (k :: st.visited) < unvisitedCount m st.visited :=
          unvisited_strict m st.visited k hkkeys hv
        have hGood1 : GoodState m (k :: S) ⟨k :: st.visited, st.result⟩ := by
          obtain ⟨g1, g2, g3, g4, g5, g6⟩ := hGood
          refine ⟨g1, g2, g3, ?_, ?_, ?_⟩
          · intro x hx
            rcases List.mem_cons.mp hx with rfl | hx2
            · exact Or.inr (Or.inl (List.mem_cons_self _ _))
            · rcases g4 x hx2 with h | h | h
              · exact Or.inl h
              · exact Or.inr (Or.inl (List.mem_cons_of_mem _ h))
              · exact Or.inr (Or.inr h)
          · intro x hx
            exact List.mem_cons_of_mem _ (g5 x hx)
          · intro x hx
            rcases List.mem_cons.mp hx with rfl | hx2
            · exact ⟨List.mem_cons_self _ _, hkkeys, fun hr => hv (g5 x hr)⟩
            · obtain ⟨ha, hb, hc⟩ := g6 x hx2
              exact ⟨List.mem_cons_of_mem _ ha, hb, hc⟩
        have hStack1 : StackOK m (k :: S) := by
          rcases hcall with rfl | ⟨p, S0, rfl, ctp, hmp, hkdep⟩
          · exact List.chain'_singleton _
          · rw [StackOK, List.chain'_cons]
            exact ⟨⟨⟨ctp, hmp, hkdep⟩, hkkeys⟩, hStack⟩
        have hnpos : 1 ≤ n := by omega
        have hQsub := (IH (n - 1) (by omega)).2 ct.dependencies
          ⟨k :: st.visited, st.result⟩ S k (by
            show unvisitedCount m (k :: st.visited) ≤ n - 1
            omega) hGood1 hStack1 ⟨ct, hm, fun d hd => hd⟩
        obtain ⟨hG2, ⟨t2, ht2⟩, hdv, hdres⟩ := hQsub
        rw [visitK_some m k st ct hv hm]
        have hknotres2 : k ∉ (visitDeps m ct.dependencies ⟨k :: st.visited, st.result⟩).1.result :=
          (hG2.2.2.2.2.2 k (List.mem_cons_self _ _)).2.2
        have hkvis2 : k ∈ (visitDeps m ct.dependencies ⟨k :: st.visited, st.result⟩).1.visited :=
          (hG2.2.2.2.2.2 k (List.mem_cons_self _ _)).1
        have hdepsres : ∀ b, dependsOn m k b →
            b ∈ (visitDeps m ct.dependencies ⟨k :: st.visited, st.result⟩).1.result := by
          intro b hb
          obtain ⟨⟨ct2, hm2, hbdep⟩, hbkeys⟩ := hb
          rw [hm] at hm2
          injection hm2 with hm2
          subst hm2
          have hbvis := hdv b hbdep
          rcases hG2.2.2.2.1 b hbvis with h | h | h
          · exact h
          · exfalso
            rcases List.mem_cons.mp h with rfl | hbS
            · exact hacyc b (Relation.TransGen.single ⟨⟨ct, hm, hbdep⟩, hbkeys⟩)
            · have htg : Relation.TransGen (dependsOn m) b k :=
                chain_stack_transGen m k S hStack1 b hbS
              exact hacyc b (htg.tail ⟨⟨ct, hm, hbdep⟩, hbkeys⟩)
          · exact absurd hbkeys h
        obtain ⟨g1, g2, g3, g4, g5, g6⟩ := hG2
        refine ⟨⟨?_, ?_, ?_, ?_, ?_, ?_⟩, ?_, ?_, ?_⟩
        · rw [List.nodup_append]
          refine ⟨g1, List.nodup_singleton _, ?_⟩
          intro x hx hx2
          rw [List.mem_singleton] at hx2
          subst hx2
          exact hknotres2 hx
        · intro a ha
          rcases List.mem_append.mp ha with h | h
          · exact g2 a h
          · rw [List.mem_singleton] at h
            subst h
            exact hkkeys
        · exact topo_append _ k m g3 hdepsres
        · intro x hx
          rcases g4 x hx with h | h | h
          · exact Or.inl (List.mem_append.mpr (Or.inl h))
          · rcases List.mem_cons.mp h with rfl | hxS
            · exact Or.inl (List.mem_append.mpr (Or.inr (List.mem_singleton.mpr rfl)))
            · exact Or.inr (Or.inl hxS)
          · exact Or.inr (Or.inr h)
        · intro x hx
          rcases List.mem_append.mp hx with h | h
          · exact g5 x h
          · rw [List.mem_singleton] at h
            subst h
            exact hkvis2
        · intro x hx
          obtain ⟨ha, hb, hc⟩ := g6 x (List.mem_cons_of_mem _ hx)
          refine ⟨ha, hb, ?_⟩
          intro hmem
          rcases List.mem_append.mp hmem with h | h
          · exact hc h
          · rw [List.mem_singleton] at h
            subst h
            exact hv ((hGood.2.2.2.2.2 x hx).1)
        · refine ⟨t2 ++ [k], ?_⟩
          show (visitDeps m ct.dependencies ⟨k :: st.visited, st.result⟩).1.result ++ [k] =
            st.result ++ (t2 ++ [k])
          rw [ht2, List.append_assoc]
        · exact hkvis2
        · intro _
          exact Or.inl (List.mem_append.mpr (Or.inr (List.mem_singleton.mpr rfl)))
  have hQ : ∀ (ds : List String) (st : VisitState) (S : List String) (p : String),
      unvisitedCount m st.visited ≤ n →
      GoodState m (p :: S) st → StackOK m (p :: S) →
      (∃ ct, mapGet m p = some ct ∧ ∀ d ∈ ds, d ∈ ct.dependencies) →
      GoodState m (p :: S) (visitDeps m ds st).1 ∧
      (∃ t, (visitDeps m ds st).1.result = st.result ++ t) ∧
      (∀ d ∈ ds, d ∈ (visitDeps m ds st).1.visited) ∧
      (∀ d ∈ ds, d ∈ keysOf m → d ∈ (visitDeps m ds st).1.result ∨ d ∈ p :: S) := by
    intro ds
    induction ds with
    | nil =>
      intro st S p hn hGood hStack hshape
      rw [visitDeps_nil]
      refine ⟨hGood, ⟨[], by simp⟩, ?_, ?_⟩ <;> simp
    | cons d rest ihds =>
      intro st S p hn hGood hStack hshape
      obtain ⟨ctp, hmp, hdall⟩ := hshape
      have hPd := hP st (p :: S) d hn hGood hStack
        (Or.inr ⟨p, S, rfl, ctp, hmp, hdall d (List.mem_cons_self _ _)⟩)
      obtain ⟨hG1, ⟨t1, ht1⟩, hdvis1, hdres1⟩ := hPd
      have hmono1 : ∀ x, x ∈ st.visited → x ∈ (visitK m d st).1.visited := (visitK m d st).2
      have hn1 : unvisitedCount m (visitK m d st).1.visited ≤ n :=
        le_trans (unvisited_mono m st.visited _ hmono1) hn
      have hrest := ihds (visitK m d st).1 S p hn1 hG1 hStack
        ⟨ctp, hmp, fun d2 hd2 => hdall d2 (List.mem_cons_of_mem _ hd2)⟩
      obtain ⟨hG2, ⟨t2, ht2⟩, hdvis2, hdres2⟩ := hrest
      have hmono2 : ∀ x, x ∈ (visitK m d st).1.visited →
          x ∈ (visitDeps m rest (visitK m d st).1).1.visited :=
        (visitDeps m rest (visitK m d st).1).2
      rw [visitDeps_cons]
      refine ⟨hG2, ⟨t1 ++ t2, by rw [ht2, ht1, List.append_assoc]⟩, ?_, ?_⟩
      · intro d2 hd2
        rcases List.mem_cons.mp hd2 with rfl | hd2r
        · exact hmono2 d2 hdvis1
        · exact hdvis2 d2 hd2r
      · intro d2 hd2 hd2keys
        rcases List.mem_cons.mp hd2 with rfl | hd2r
        · rcases hdres1 hd2keys with h | h
          · left
            rw [ht2]
            exact List.mem_append.mpr (Or.inl h)
          · exact Or.inr h
        · exact hdres2 d2 hd2r hd2keys
  exact ⟨hP, hQ⟩

theorem visit_fold_spec (m : List (String × CategorizedContentType)) (hacyc : Acyclic m)
    (ks : List String) :
    ∀ st : VisitState, GoodState m [] st →
      GoodState m [] (ks.foldl (fun st k => (visitK m k st).1) st) ∧
      (∃ t, (ks.foldl (fun st k => (visitK m k st).1) st).result = st.result ++ t) ∧
      (∀ k ∈ ks, k ∈ keysOf m → k ∈ (ks.foldl (fun st k => (visitK m k st).1) st).result) := by
  induction ks with
  | nil =>
    intro st hGood
    refine ⟨hGood, ⟨[], by simp⟩, ?_⟩
    simp
  | cons k ks ih =>
    intro st hGood
    rw [List.foldl_cons]
    have hP := (visit_spec m hacyc (unvisitedCount m st.visited)).1 st [] k
      (le_refl _) hGood List.chain'_nil (Or.inl rfl)
    obtain ⟨hG1, ⟨t1, ht1⟩, hkvis, hkres⟩ := hP
    obtain ⟨hG2, ⟨t2, ht2⟩, hmem⟩ := ih (visitK m k st).1 hG1
    refine ⟨hG2, ⟨t1 ++ t2, by rw [ht2, ht1, List.append_assoc]⟩, ?_⟩
    intro k2 hk2 hk2keys
    rcases List.mem_cons.mp hk2 with rfl | hk2r
    · rcases hkres hk2keys with h | h
      · rw [ht2]
        exact List.mem_append.mpr (Or.inl h)
      · simp at h
    · exact hmem k2 hk2r hk2keys

/-- C2.  For every model whose present-in-model dependency graph is
acyclic, the dependency orderer outputs a duplicate-free sequence whose
members are exactly the content-type keys of the model, in which every
key appears strictly after all of its dependencies that are present in
the model (every present dependency of an emitted key lies in the prefix
before it); dependencies on absent keys are ignored: they never appear in
the output and cause no failure. -/
theorem buildDependencyOrder_topological (parsed : ParsedTypes)
    (hacyc : Acyclic parsed.contentTypes) :
    (buildDependencyOrder parsed).Nodup ∧
    (∀ k, k ∈ buildDependencyOrder parsed ↔ k ∈ keysOf parsed.contentTypes) ∧
    (∀ l1 a l2, buildDependencyOrder parsed = l1 ++ a :: l2 →
      ∀ b, dependsOn parsed.contentTypes a b → b ∈ l1) := by
  have hinit : GoodState parsed.contentTypes [] ⟨[], []⟩ := by
    refine ⟨List.nodup_nil, ?_, ?_, ?_, ?_, ?_⟩
    · intro a ha
      simp at ha
    · intro l1 a l2 h
      exfalso
      cases l1 <;> simp at h
    · intro x hx
      simp at hx
    · intro x hx
      simp at hx
    · intro x hx
      simp at hx
  obtain ⟨hG, ⟨t, ht⟩, hmem⟩ :=
    visit_fold_spec parsed.contentTypes hacyc (keysOf parsed.contentTypes) ⟨[], []⟩ hinit
  refine ⟨hG.1, ?_, hG.2.2.1⟩
  intro k
  constructor
  · intro hk
    exact hG.2.1 k hk
  · intro hk
    exact hmem k hk hk

/-- Witness for C2 at the two-node acyclic model (A depends on B): the
output is duplicate-free and contains the key A. -/
theorem buildDependencyOrder_topological_witness :
    (buildDependencyOrder exParsed).Nodup ∧
    ("A" ∈ buildDependencyOrder exParsed ↔ "A" ∈ keysOf exParsed.contentTypes) := by
  have hedge : ∀ a b : String, dependsOn exParsed.contentTypes a b → a = "A" ∧ b = "B" := by
    intro a b hb
    obtain ⟨⟨ct, hm, hdep⟩, _⟩ := hb
    rw [show exParsed.contentTypes = [("A", exA), ("B", exB)] from rfl, mapGet] at hm
    by_cases h1 : "A" = a
    · rw [if_pos h1] at hm
      injection hm with hm
      subst hm
      have hb2 : b = "B" := by
        simpa [exA] using hdep
      exact ⟨h1.symm, hb2⟩
    · rw [if_neg h1, mapGet] at hm
      by_cases h2 : "B" = a
      · rw [if_pos h2] at hm
        injection hm with hm
        subst hm
        exfalso
        simp [exB] at hdep
      · rw [if_neg h2, mapGet] at hm
        cases hm
  have hacyc : Acyclic exParsed.contentTypes := by
    intro k htg
    have hab : ∀ x y : String, Relation.TransGen (dependsOn exParsed.contentTypes) x y →
        x = "A" ∧ y = "B" := by
      intro x y h
      induction h with
      | single h1 => exact hedge _ _ h1
      | tail h1 h2 ih =>
        exfalso
        have he := hedge _ _ h2
        have : ("B" : String) = "A" := by
          rw [← ih.2]
          exact he.1
        exact absurd this (by decide)
    have hk := hab k k htg
    have : ("A" : String) = "B" := by
      rw [← hk.1]
      exact hk.2
    exact absurd this (by decide)
  exact ⟨(buildDependencyOrder_topological exParsed hacyc).1,
         (buildDependencyOrder_topological exParsed hacyc).2.1 "A"⟩
